import Mathlib

/-!
# Verification of the gocaml closure-conversion pass

This development is a shallow embedding of the closure transform of the
`closure` package (`transformWithKFO`, `Transform`) together with the parts of
its environment that the specification describes: the GCIL instruction model
and the free-variable analysis.

Modelling conventions:

* A GCIL block is a doubly linked instruction list framed by non-observable
  sentinel nodes (a leading NOP that `start` skips, and a terminal node with no
  successor at which `explore` stops).  The model `Block` is the list of the
  real instructions in between; `explore` therefore processes every listed
  instruction in order.
* Go map/pointer identity of instructions is modelled by a numeric `id` field
  carried by every instruction; `replacedFuns` (keyed by `*gcil.Insn`) and
  `closureCalls` (a slice of `*gcil.App`) store those ids.
* The `gcil` package and `gatherFreeVars` / `gatherFreeVarsTillTheEnd`
  (`closure/freevars.go`) are not part of the provided sources; they are
  modelled from the specification (sections 3 and 4.2), see `fvB` below.
* `nameSet` is a Go hash map, so `nameSet.toArray` enumerates it in an
  iteration order that the Go runtime does not fix.  The model threads an
  explicit enumeration function `iter : List String → List String` through the
  transform and applies it exactly where the source calls `toArray`
  (recording a closure's capture list).  A "run" of the compiled program
  corresponds to a choice of `iter` that permutes its argument.
-/

set_option maxHeartbeats 1000000

namespace GocamlClosure

/-! ## Name-set primitives

Go's `nameSet` is `map[string]struct{}`.  The model keeps the elements as a
duplicate-free list in construction order; emptiness, membership and deletion
agree with the Go map, and the unspecified enumeration order of `toArray` is
supplied externally by `iter`. -/

/-- Insert a name into a name set (no duplicates). -/
def insertS (x : String) (s : List String) : List String :=
  if x ∈ s then s else s ++ [x]

/-- Union of name sets, keeping the elements of `a` first. -/
def unionS (a b : List String) : List String :=
  b.foldl (fun acc x => insertS x acc) a

/-- The set of names occurring in a list. -/
def dedupS (l : List String) : List String :=
  unionS [] l

/-- `delete(set, x)` on a name set. -/
def removeS (x : String) (s : List String) : List String :=
  s.filter (fun y => y ≠ x)

/-- Delete every name of `P` from a name set (the `for _, p := range val.Params
{ delete(fv, p) }` loops). -/
def removeAllS (P : List String) (s : List String) : List String :=
  s.filter (fun y => y ∉ P)

/-! ## Association lists

Go maps keyed by strings (`closures`, `closureBlockFreeVars`) and by
instruction identity (`replacedFuns`) are modelled as association lists with
overwrite-on-insert semantics. -/

/-- Map update `m[k] = v`. -/
def setA {κ α : Type} [DecidableEq κ] (k : κ) (v : α) : List (κ × α) → List (κ × α)
  | [] => [(k, v)]
  | (k', v') :: rest => if k' = k then (k, v) :: rest else (k', v') :: setA k v rest

/-- Map lookup `m[k]`. -/
def lookupA {κ α : Type} [DecidableEq κ] (k : κ) : List (κ × α) → Option α
  | [] => none
  | (k', v') :: rest => if k' = k then some v' else lookupA k rest

/-! ## The GCIL instruction model

Modelled from the spec: the `gcil` package is not among the provided sources.
Section 3 of the specification gives the data model: a block is an ordered
sequence of instructions, each binding one identifier to a value variant, the
variants relevant to this pass being a primitive op (opaque except for the
identifiers it reads), a function literal (parameters plus a nested body
block), an application (callee, arguments and a mutable indirect flag), and
the output-only closure-construction variant. -/

mutual

/-- A GCIL value variant. -/
inductive Val : Type where
  /-- A primitive op: opaque to the pass except for the identifiers it reads. -/
  | prim : List String → Val
  /-- `gcil.Fun`: parameter identifiers and the body block. -/
  | fn : List String → Block → Val
  /-- `gcil.App`: callee, argument identifiers, and the `Closure` flag. -/
  | app : String → List String → Bool → Val
  /-- `gcil.MakeCls`: captured identifiers and the underlying function name. -/
  | mkcls : List String → String → Val

/-- A GCIL instruction: identity (modelling the Go pointer), the bound
identifier, and the value variant. -/
inductive Insn : Type where
  | mk : Nat → String → Val → Insn

/-- A GCIL block: the real instructions between the sentinels. -/
inductive Block : Type where
  | nil : Block
  | cons : Insn → Block → Block

end

deriving instance DecidableEq for Val
deriving instance DecidableEq for Insn
deriving instance DecidableEq for Block
deriving instance Repr for Val
deriving instance Repr for Insn
deriving instance Repr for Block

/-- Instruction identity (the Go pointer). -/
def Insn.id : Insn → Nat
  | .mk j _ _ => j

/-- The identifier an instruction binds. -/
def Insn.ident : Insn → String
  | .mk _ x _ => x

/-- The value variant of an instruction. -/
def Insn.val : Insn → Val
  | .mk _ _ v => v

/-! ## Free-variable analysis

Modelled from the spec: `gatherFreeVars` and `gatherFreeVarsTillTheEnd`
(`closure/freevars.go`) are not among the provided sources.  Section 4.2 of
the specification defines `freeVars(block, state)`: every identifier read by
an instruction of the block that is not bound earlier within the same block,
where a *direct call* to a function currently classified known is erased (the
design rationale and the glossary restrict the known-function exemption to
direct references, i.e. the callee position of an application; value reads,
argument positions included, always count).  A nested function body
contributes its own free variables minus its parameters and minus its own
name.  The only component of the classification state the analysis consults
is the known-function set `K`. -/

/-- Free variables of a block under known-function set `K`, scanning from the
back so that each instruction's bound identifier is removed from the free
variables of the instructions after it. -/
def fvB (K : List String) : Block → List String
  | .nil => []
  | .cons (.mk _ x (.prim rs)) rest =>
    unionS (dedupS rs) (removeS x (fvB K rest))
  | .cons (.mk _ x (.app c args _)) rest =>
    unionS (unionS (if c ∈ K then [] else [c]) (dedupS args)) (removeS x (fvB K rest))
  | .cons (.mk _ x (.mkcls vs f)) rest =>
    unionS (unionS (dedupS vs) [f]) (removeS x (fvB K rest))
  | .cons (.mk _ x (.fn P B)) rest =>
    unionS (removeAllS (x :: P) (fvB K B)) (removeS x (fvB K rest))

/-- All identifiers read anywhere in a block, nested bodies included and with
no binding or known-function filtering. -/
def readsB : Block → List String
  | .nil => []
  | .cons (.mk _ _ v) rest =>
    (match v with
      | .prim rs => rs
      | .app c args _ => c :: args
      | .mkcls vs f => vs ++ [f]
      | .fn _ B => readsB B) ++ readsB rest

/-- `(ident, params, body)` of every function literal of a block, nested ones
included. -/
def allFuns : Block → List (String × List String × Block)
  | .nil => []
  | .cons (.mk _ x v) rest =>
    (match v with
      | .fn P B => (x, P, B) :: allFuns B
      | _ => []) ++ allFuns rest

mutual

/-- The instruction ids occurring in a block, nested bodies included. -/
def insnIds : Block → List Nat
  | .nil => []
  | .cons (.mk j _ v) rest => j :: (insnIdsVal v ++ insnIds rest)

/-- The instruction ids occurring inside a value (a function body). -/
def insnIdsVal : Val → List Nat
  | .fn _ B => insnIds B
  | _ => []

end

/-! ## The classification state

`transformWithKFO` (closure/transform.go). -/

/-- `gcil.MakeCls`: the payload of a replacement decision. -/
structure MakeCls where
  vars : List String
  name : String
deriving DecidableEq, Repr

/-- The `transformWithKFO` struct.  `replacedFuns` maps an instruction id to
`none` (remove the instruction) or `some m` (replace it by `MakeCls`);
`closureCalls` lists the ids of the recorded application instructions. -/
structure Trans where
  knownFuns : List String
  replacedFuns : List (Nat × Option MakeCls)
  closureCalls : List Nat
  closures : List (String × List String)
  closureBlockFreeVars : List (String × List String)
deriving DecidableEq, Repr

/-- `transformWithKFO.dup`.  The Go method copies every map entrywise into
fresh maps and copies the `closureCalls` slice header by value; the resulting
state has the same observable contents as the original, which is what the
pure model returns.  (The aliasing aspect of `dup` — that updating the copy
cannot change the original — is modelled separately with an explicit store,
see the `DupStore` section.) -/
def Trans.dup (t : Trans) : Trans :=
  ⟨t.knownFuns, t.replacedFuns, t.closureCalls, t.closures, t.closureBlockFreeVars⟩

/-- The zero state `Transform` starts from. -/
def initTrans : Trans :=
  ⟨[], [], [], [], []⟩

/-! ## The speculative classification engine

`transformWithKFO.explore` / `transformWithKFO.start`.  `start block` skips
the leading NOP sentinel and explores the real instructions, which in the
model is just `explore` on the instruction list; the terminal-sentinel check
`insn.Next == nil` is the `.nil` case. -/

/-- `transformWithKFO.explore`, with the Go-map enumeration order of
`nameSet.toArray` supplied as `iter`. -/
def explore (iter : List String → List String) : Trans → Block → Trans
  | t, .nil => t
  | t, .cons (.mk j x v) rest =>
    match v with
    | .fn P B =>
      -- Assume the function is not a closure and try to transform its body.
      let d0 := t.dup
      let d1 : Trans := { d0 with knownFuns := insertS x d0.knownFuns }
      let d2 := explore iter d1 B
      -- Check there is no free variable actually.
      let fv := removeAllS P (fvB d2.knownFuns B)
      let t1 : Trans :=
        if fv ≠ [] then
          -- The function is actually a closure: discard the duplicate and
          -- retry visiting its body after adding it to the closures.
          let t' := explore iter t B
          let fv2 := removeAllS P (fvB t'.knownFuns B)
          { t' with closures := setA x (iter fv2) t'.closures }
        else t
      -- Visit the rest of the block.
      let t2 := explore iter t1 rest
      let fvp := fvB t2.knownFuns rest
      let t3 : Trans :=
        { t2 with closureBlockFreeVars := setA x fvp t2.closureBlockFreeVars }
      let repl : Option MakeCls :=
        if x ∈ fvp then
          -- The function is referred to later: make a closure, with an empty
          -- capture list when it has no recorded free variables.
          some ⟨(lookupA x t3.closures).getD [], x⟩
        else none
      { t3 with replacedFuns := setA j repl t3.replacedFuns }
    | .app c _ _ =>
      let t1 : Trans :=
        if c ∈ t.knownFuns then { t with closureCalls := t.closureCalls ++ [j] }
        else t
      explore iter t1 rest
    | _ => explore iter t rest

/-! ## Rewrite / materialization

The second half of `Transform` (closure/transform.go, lines after `t.start`).
It mutates the IR in place through the recorded instruction pointers: the
pointed-to instruction objects stay alive even after being detached from
their list, so the model carries, next to the current outermost block, a
table of the detached instruction objects (`id`, bound identifier, current
value) — that is what a second run of the phase would still observe through
the pointers of `replacedFuns`. -/

/-- The mutable IR as the rewrite phase sees it: the outermost block plus the
detached-but-still-referenced instruction objects. -/
structure IRState where
  main : Block
  detached : List (Nat × String × Val)
deriving DecidableEq, Repr

/-- The output `gcil.Program`: toplevel function table (name, parameters,
body), the closures mapping, and the rewritten outermost block. -/
structure Program where
  toplevel : List (String × List String × Block)
  closures : List (String × List String)
  main : Block
deriving DecidableEq, Repr

mutual

/-- `app.Closure = true` for every application instruction recorded in
`calls`, applied through nested bodies (the recorded pointers reach the
instruction wherever it lives). -/
def markB (calls : List Nat) : Block → Block
  | .nil => .nil
  | .cons (.mk j x v) rest => .cons (.mk j x (markVal calls j v)) (markB calls rest)

/-- Marking on a single value variant; `j` is the id of the instruction
holding the value. -/
def markVal (calls : List Nat) (j : Nat) : Val → Val
  | .app c args flag => .app c args (if j ∈ calls then true else flag)
  | .fn P B => .fn P (markB calls B)
  | v => v

end

mutual

/-- Apply the recorded replacement decisions to a block: an instruction with
decision `none` is detached (`RemoveFromList`), one with decision `some m` has
its value overwritten by `MakeCls`; the detached instruction objects are
collected together with their (recursively rewritten) values. -/
def applyReplB (R : List (Nat × Option MakeCls)) :
    Block → Block × List (Nat × String × Val)
  | .nil => (.nil, [])
  | .cons (.mk j x v) rest =>
    let pv := applyReplVal R v
    let pr := applyReplB R rest
    match lookupA j R with
    | some none => (pr.1, (j, x, pv.1) :: (pv.2 ++ pr.2))
    | some (some m) => (.cons (.mk j x (.mkcls m.vars m.name)) pr.1, pv.2 ++ pr.2)
    | none => (.cons (.mk j x pv.1) pr.1, pv.2 ++ pr.2)

/-- Replacement decisions inside a single value (descending into function
bodies, whose instructions the recorded pointers also reach). -/
def applyReplVal (R : List (Nat × Option MakeCls)) : Val → Val × List (Nat × String × Val)
  | .fn P B =>
    let p := applyReplB R B
    (.fn P p.1, p.2)
  | v => (v, [])

end

/-- Find the instruction with id `j` in a block, nested bodies included. -/
def findIns (j : Nat) : Block → Option (String × Val)
  | .nil => none
  | .cons (.mk j' x v) rest =>
    if j' = j then some (x, v)
    else match v with
      | .fn _ B =>
        match findIns j B with
        | some r => some r
        | none => findIns j rest
      | _ => findIns j rest

/-- Find the instruction with id `j` inside a value (a function body). -/
def findInsVal (j : Nat) : Val → Option (String × Val)
  | .fn _ B => findIns j B
  | _ => none

/-- Find the instruction with id `j` among the detached objects, looking also
inside their bodies (a detached function's body still holds its instruction
objects). -/
def findInDet (j : Nat) : List (Nat × String × Val) → Option (String × Val)
  | [] => none
  | (k, x, v) :: rest =>
    if k = j then some (x, v)
    else match findInsVal j v with
      | some r => some r
      | none => findInDet j rest

/-- What the pointer with id `j` currently points to: the instruction in the
block if it is still linked, otherwise the (possibly nested) detached
object. -/
def curIns (j : Nat) (s : IRState) : Option (String × Val) :=
  match findIns j s.main with
  | some r => some r
  | none => findInDet j s.detached

/-- Whether a value is a function literal (`insn.Val.(*gcil.Fun)`). -/
def Val.isFn : Val → Bool
  | .fn _ _ => true
  | _ => false

/-- The rewrite/materialization phase.  Fails (the Go code panics) exactly
when a recorded decision targets an instruction whose current value is not a
function literal; otherwise it marks the recorded closure calls, applies the
replacement decisions, and assembles the `Program`. -/
def rewritePhase (t : Trans) (s : IRState) : Except String (Program × IRState) :=
  -- Mark the recorded closure calls (`app.Closure = true`).
  let main1 := markB t.closureCalls s.main
  let det1 := s.detached.map (fun e => (e.1, e.2.1, markVal t.closureCalls e.1 e.2.2))
  let s1 : IRState := ⟨main1, det1⟩
  -- `Replaced function is actually not a function` check.
  if t.replacedFuns.any (fun p =>
      match curIns p.1 s1 with
      | some (_, v) => !v.isFn
      | none => false) then
    .error "Replaced function is actually not a function"
  else
    let pm := applyReplB t.replacedFuns main1
    let det2 :=
      (det1.map (fun e => (e.1, e.2.1, (applyReplVal t.replacedFuns e.2.2).1))
        ++ det1.flatMap (fun e => (applyReplVal t.replacedFuns e.2.2).2))
        ++ pm.2
    let toplevel := t.replacedFuns.filterMap (fun p =>
      match curIns p.1 s1 with
      | some (x, .fn P B) => some (x, P, (applyReplB t.replacedFuns B).1)
      | _ => none)
    .ok (⟨toplevel, t.closures, pm.1⟩, ⟨pm.1, det2⟩)

/-- `Transform`: run the classification engine from the empty state over the
outermost block, then rewrite.  `iter` is the Go-map enumeration order used by
`nameSet.toArray`. -/
def Transform (iter : List String → List String) (ir : Block) : Except String Program :=
  let t := explore iter initTrans ir
  (rewritePhase t ⟨ir, []⟩).map (fun p => p.1)

deriving instance DecidableEq for Except

/-! ## Misc helpers used by the statements -/

/-- The keys of an association list. -/
def keysOf {κ α : Type} (l : List (κ × α)) : List κ :=
  l.map (fun e => e.1)

/-- The identifiers of all function literals of a block, nested ones
included. -/
def funIdents (b : Block) : List String :=
  (allFuns b).map (fun e => e.1)

/-- The ids reachable through a detached-object table: the objects' own ids
and the ids inside their bodies. -/
def detIds (l : List (Nat × String × Val)) : List Nat :=
  l.flatMap (fun e => e.1 :: insnIdsVal e.2.2)

/-- Shape of a committed closures entry: the capture list recorded for `f` is
`toArray` of the free variables of `f`'s body (under the known set of the
recording state) minus `f`'s parameters. -/
def closEntryOk (iter : List String → List String) (K : List String) (b : Block)
    (e : String × List String) : Prop :=
  ∃ P B, (e.1, P, B) ∈ allFuns b ∧ e.2 = iter (removeAllS P (fvB K B))

mutual

/-- `true` iff a block contains no `MakeCls` value (the input IR: the variant
is produced only by this pass). -/
def noMkclsB : Block → Bool
  | .nil => true
  | .cons (.mk _ _ v) rest => noMkclsVal v && noMkclsB rest

/-- `true` iff a value contains no `MakeCls` node. -/
def noMkclsVal : Val → Bool
  | .mkcls _ _ => false
  | .fn _ B => noMkclsB B
  | _ => true

end

mutual

/-- `true` iff every application instruction of `b` recorded in `calls`
already has its indirect flag set (the result of `markB`). -/
def markedB (calls : List Nat) : Block → Bool
  | .nil => true
  | .cons (.mk j _ v) rest => markedVal calls j v && markedB calls rest

/-- Marked-ness of a single value held by instruction `j`. -/
def markedVal (calls : List Nat) (j : Nat) : Val → Bool
  | .app _ _ flag => if j ∈ calls then flag else true
  | .fn _ B => markedB calls B
  | _ => true

end

/-! ## Reordering a run's map-enumeration order

Used to settle the determinism claim: the only place the Go-map enumeration
order is observable is `nameSet.toArray` on a recorded capture list, so two
runs differ exactly by applying their enumeration orders to each capture
list.  `mapIterB` applies an enumeration function to the capture list of
every `MakeCls` node; `mapIterT` and `mapIterP` apply it to the capture lists
stored in a classification state and in a `Program`. -/

mutual

/-- Apply `it` to the variable list of every `MakeCls` node of a block. -/
def mapIterB (it : List String → List String) : Block → Block
  | .nil => .nil
  | .cons (.mk j x v) rest => .cons (.mk j x (mapIterVal it v)) (mapIterB it rest)

/-- Apply `it` to the variable list of every `MakeCls` node of a value. -/
def mapIterVal (it : List String → List String) : Val → Val
  | .mkcls vs f => .mkcls (it vs) f
  | .fn P B => .fn P (mapIterB it B)
  | v => v

end

/-- Apply `it` to every capture list recorded in a classification state. -/
def mapIterT (it : List String → List String) (t : Trans) : Trans :=
  { t with
    closures := t.closures.map (fun e => (e.1, it e.2))
    replacedFuns :=
      t.replacedFuns.map (fun e => (e.1, e.2.map (fun m => ⟨it m.vars, m.name⟩))) }

/-- Apply `it` to every capture list of a `Program`. -/
def mapIterP (it : List String → List String) (p : Program) : Program :=
  ⟨p.toplevel.map (fun e => (e.1, e.2.1, mapIterB it e.2.2)),
   p.closures.map (fun e => (e.1, it e.2)),
   mapIterB it p.main⟩

/-! ## The state-duplication store model

`transformWithKFO.dup` exists to let a hypothesis be explored and discarded
without undo.  In Go the maps of the struct are reference values, so the
frame property is about aliasing: `dup` allocates four fresh maps and copies
every entry, and copies the `closureCalls` slice header by value (appending
to a Go slice never changes the length an existing header sees, which is why
the source comments that `append()` does not break the original array).  The
model makes the references explicit: a store maps references to map contents,
a state holds one reference per map plus the slice value, `dupR` allocates
fresh references, and updates write through a given state's references. -/

/-- The store of map contents, with an allocation counter. -/
structure DupStore where
  fresh : Nat
  knowns : List (Nat × List String)
  replaced : List (Nat × List (Nat × Option MakeCls))
  clss : List (Nat × List (String × List String))
  blks : List (Nat × List (String × List String))
deriving DecidableEq, Repr

/-- A `transformWithKFO` value under the store model: one reference per map
field, and the `closureCalls` slice held by value. -/
structure TransRef where
  knownR : Nat
  replacedR : Nat
  closuresR : Nat
  blksR : Nat
  closureCalls : List Nat
deriving DecidableEq, Repr

/-- Contents of the known-set map at reference `r`. -/
def getKnown (w : DupStore) (r : Nat) : List String :=
  (lookupA r w.knowns).getD []

/-- Contents of the replaced-functions map at reference `r`. -/
def getReplaced (w : DupStore) (r : Nat) : List (Nat × Option MakeCls) :=
  (lookupA r w.replaced).getD []

/-- Contents of the closures map at reference `r`. -/
def getClss (w : DupStore) (r : Nat) : List (String × List String) :=
  (lookupA r w.clss).getD []

/-- Contents of the block-free-variables map at reference `r`. -/
def getBlks (w : DupStore) (r : Nat) : List (String × List String) :=
  (lookupA r w.blks).getD []

/-- `transformWithKFO.dup` under the store model: allocate four fresh maps,
copy every entry of the originals into them, and copy the `closureCalls`
slice header by value. -/
def dupR (w : DupStore) (s : TransRef) : DupStore × TransRef :=
  ({ fresh := w.fresh + 4
     knowns := setA w.fresh (getKnown w s.knownR) w.knowns
     replaced := setA (w.fresh + 1) (getReplaced w s.replacedR) w.replaced
     clss := setA (w.fresh + 2) (getClss w s.closuresR) w.clss
     blks := setA (w.fresh + 3) (getBlks w s.blksR) w.blks },
   ⟨w.fresh, w.fresh + 1, w.fresh + 2, w.fresh + 3, s.closureCalls⟩)

/-- The updates the engine performs on a state: insertions into the four maps
and appends to the closure-call list. -/
inductive SUpdate : Type where
  | addKnown : String → SUpdate
  | setReplaced : Nat → Option MakeCls → SUpdate
  | setClosure : String → List String → SUpdate
  | setBlk : String → List String → SUpdate
  | appendCall : Nat → SUpdate
deriving DecidableEq, Repr

/-- Perform one update through the references of state `s`. -/
def applyU (u : SUpdate) (w : DupStore) (s : TransRef) : DupStore × TransRef :=
  match u with
  | .addKnown x =>
    ({ w with knowns := setA s.knownR (insertS x (getKnown w s.knownR)) w.knowns }, s)
  | .setReplaced j m =>
    ({ w with replaced := setA s.replacedR (setA j m (getReplaced w s.replacedR)) w.replaced }, s)
  | .setClosure f fv =>
    ({ w with clss := setA s.closuresR (setA f fv (getClss w s.closuresR)) w.clss }, s)
  | .setBlk f fv =>
    ({ w with blks := setA s.blksR (setA f fv (getBlks w s.blksR)) w.blks }, s)
  | .appendCall j =>
    (w, { s with closureCalls := s.closureCalls ++ [j] })

/-- Perform a sequence of updates. -/
def applyUs (us : List SUpdate) (w : DupStore) (s : TransRef) : DupStore × TransRef :=
  us.foldl (fun p u => applyU u p.1 p.2) (w, s)

/-- The observable contents of a state: the four map contents it references
plus its closure-call list. -/
def obsR (w : DupStore) (s : TransRef) : Trans :=
  ⟨getKnown w s.knownR, getReplaced w s.replacedR, s.closureCalls,
   getClss w s.closuresR, getBlks w s.blksR⟩

/-- A state is valid in a store when its references were allocated by it. -/
def validR (w : DupStore) (s : TransRef) : Prop :=
  s.knownR < w.fresh ∧ s.replacedR < w.fresh ∧ s.closuresR < w.fresh ∧ s.blksR < w.fresh

/-! ## The fatal scope-bookkeeping check of `sema.derefTypeVars`

`sema/deref.go`: after the AST traversal, `derefTypeVars` panics when the
`symBounds` bookkeeping (bound type-variable ids pushed per binding symbol)
was not fully popped.  The traversal itself (`ast.Visit` and the `types`
machinery) is outside the provided sources; the model keeps the final check
exactly, over whatever `symBounds` contents the traversal left behind. -/

/-- The final check of `derefTypeVars`: fatal iff bookkeeping is left over. -/
def derefFinalCheck (symBounds : List (String × List Nat)) : Except String Unit :=
  if symBounds ≠ [] then
    .error "FATAL: Bound type variable must not exist at toplevel"
  else .ok ()

/-! ## Concrete example programs -/

/-- The Go-map enumeration order used for canonical runs. -/
def idIter : List String → List String := fun l => l

/-- An enumeration order that lists the same set in the opposite order. -/
def revIter : List String → List String := fun l => l.reverse

/-- `x := prim; g := fn(y){r := x+y}; a := g x` — `g` is a closure capturing
`x`, and the call to `g` is a call to a callee outside the known set. -/
def exA : Block :=
  .cons (.mk 1 "x" (.prim []))
 (.cons (.mk 2 "g" (.fn ["y"] (.cons (.mk 10 "r" (.prim ["x", "y"])) .nil)))
 (.cons (.mk 3 "a" (.app "g" ["x"] false)) .nil))

/-- `f := fn(x){r := f x}; w := prim` — a directly self-recursive function
with no free variables besides its own name. -/
def exSelf : Block :=
  .cons (.mk 1 "f" (.fn ["x"] (.cons (.mk 10 "r" (.app "f" ["x"] false)) .nil)))
 (.cons (.mk 2 "w" (.prim [])) .nil)

/-- `f := fn(x){ g := fn(y){r := y}; z := prim }; w := prim` — a function
literal `g` nested inside a body whose Known hypothesis is confirmed. -/
def exNested : Block :=
  .cons (.mk 1 "f" (.fn ["x"]
    (.cons (.mk 10 "g" (.fn ["y"] (.cons (.mk 20 "r" (.prim ["y"])) .nil)))
    (.cons (.mk 11 "z" (.prim [])) .nil))))
 (.cons (.mk 2 "w" (.prim [])) .nil)

/-- `x := prim; y := prim; g := fn(z){r := x+y+z}; a := g x` — a closure
capturing two variables, so its capture list has an observable order. -/
def exTwo : Block :=
  .cons (.mk 1 "x" (.prim []))
 (.cons (.mk 2 "y" (.prim []))
 (.cons (.mk 3 "g" (.fn ["z"] (.cons (.mk 30 "r" (.prim ["x", "y", "z"])) .nil)))
 (.cons (.mk 4 "a" (.app "g" ["x"] false)) .nil)))

/-! # Lemma infrastructure -/

section SetOps

theorem mem_insertS {x y : String} {s : List String} :
    x ∈ insertS y s ↔ x = y ∨ x ∈ s := by
  unfold insertS
  split
  · constructor
    · exact Or.inr
    · rintro (rfl | h) <;> assumption
  · simp [or_comm]

theorem nodup_insertS {y : String} {s : List String} (h : s.Nodup) :
    (insertS y s).Nodup := by
  unfold insertS
  split
  · exact h
  · simpa [List.nodup_append, h] using fun hy => by simp_all

theorem mem_unionS {x : String} {a b : List String} :
    x ∈ unionS a b ↔ x ∈ a ∨ x ∈ b := by
  unfold unionS
  induction b generalizing a with
  | nil => simp
  | cons y ys ih => simp [ih, mem_insertS]; tauto

theorem nodup_unionS {a b : List String} (h : a.Nodup) : (unionS a b).Nodup := by
  unfold unionS
  induction b generalizing a with
  | nil => exact h
  | cons y ys ih => exact ih (nodup_insertS h)

theorem mem_dedupS {x : String} {l : List String} : x ∈ dedupS l ↔ x ∈ l := by
  simp [dedupS, mem_unionS]

theorem nodup_dedupS {l : List String} : (dedupS l).Nodup :=
  nodup_unionS List.nodup_nil

theorem mem_removeS {x y : String} {s : List String} :
    x ∈ removeS y s ↔ x ∈ s ∧ x ≠ y := by
  simp [removeS]

theorem mem_removeAllS {x : String} {P s : List String} :
    x ∈ removeAllS P s ↔ x ∈ s ∧ x ∉ P := by
  simp [removeAllS]

theorem nodup_removeAllS {P s : List String} (h : s.Nodup) :
    (removeAllS P s).Nodup :=
  List.Nodup.filter _ h

end SetOps

section AssocOps

variable {κ α : Type} [DecidableEq κ]

theorem lookupA_setA_self {k : κ} {v : α} {l : List (κ × α)} :
    lookupA k (setA k v l) = some v := by
  induction l with
  | nil => simp [setA, lookupA]
  | cons e rest ih =>
    obtain ⟨k', v'⟩ := e
    by_cases h : k' = k <;> simp [setA, lookupA, h, ih]

theorem lookupA_setA_ne {k k' : κ} {v : α} {l : List (κ × α)} (h : k' ≠ k) :
    lookupA k' (setA k v l) = lookupA k' l := by
  induction l with
  | nil => simp [setA, lookupA, Ne.symm h]
  | cons e rest ih =>
    obtain ⟨k0, v0⟩ := e
    by_cases h0 : k0 = k
    · subst h0; simp [setA, lookupA, Ne.symm h, ih]
    · by_cases h1 : k0 = k'
      · subst h1; simp [setA, lookupA, h0, h]
      · simp [setA, lookupA, h0, h1, ih]

theorem mem_setA {e : κ × α} {k : κ} {v : α} {l : List (κ × α)} :
    e ∈ setA k v l → e = (k, v) ∨ e ∈ l := by
  induction l with
  | nil => simp [setA]
  | cons e0 rest ih =>
    obtain ⟨k0, v0⟩ := e0
    by_cases h : k0 = k <;> simp [setA, h] <;> intro hm <;> tauto

theorem keysOf_setA {k : κ} {v : α} {l : List (κ × α)} {k' : κ} :
    k' ∈ keysOf (setA k v l) → k' = k ∨ k' ∈ keysOf l := by
  intro h
  simp only [keysOf, List.mem_map] at h
  obtain ⟨e, he, hk⟩ := h
  rcases mem_setA he with h | h
  · subst h; left; simpa using hk.symm
  · right; exact List.mem_map.mpr ⟨e, h, hk⟩

theorem lookupA_none_of_not_mem_keys {k : κ} {l : List (κ × α)}
    (h : k ∉ keysOf l) : lookupA k l = none := by
  induction l with
  | nil => rfl
  | cons e rest ih =>
    obtain ⟨k0, v0⟩ := e
    simp [keysOf] at h
    simp [lookupA, h.1, ih (by simp [keysOf, h.2])]
    intro hk; exact absurd hk.symm h.1

theorem mem_keys_of_lookupA_some {k : κ} {v : α} {l : List (κ × α)}
    (h : lookupA k l = some v) : k ∈ keysOf l := by
  by_contra hk
  rw [lookupA_none_of_not_mem_keys hk] at h
  cases h

end AssocOps

section FvLemmas

/-- Every free variable of a block is read somewhere in it. -/
theorem fvB_subset_readsB {K : List String} {b : Block} {x : String}
    (h : x ∈ fvB K b) : x ∈ readsB b := by
  induction b using fvB.induct K with
  | case1 => simp [fvB] at h
  | case2 j y rs rest ih =>
    simp only [fvB, mem_unionS, mem_removeS, mem_dedupS] at h
    simp only [readsB, List.mem_append]
    rcases h with h | ⟨h, -⟩
    · exact Or.inl h
    · exact Or.inr (ih h)
  | case3 j y c args fl rest ih =>
    simp only [fvB, mem_unionS, mem_removeS, mem_dedupS] at h
    simp only [readsB, List.mem_append, List.mem_cons]
    rcases h with (h | h) | ⟨h, -⟩
    · split at h <;> simp_all
    · exact Or.inl (Or.inr h)
    · exact Or.inr (ih h)
  | case4 j y vs f rest ih =>
    simp only [fvB, mem_unionS, mem_removeS, mem_dedupS, List.mem_singleton] at h
    simp only [readsB, List.mem_append, List.mem_singleton]
    rcases h with (h | h) | ⟨h, -⟩
    · exact Or.inl (Or.inl h)
    · exact Or.inl (Or.inr h)
    · exact Or.inr (ih h)
  | case5 j y P B rest ihB ih =>
    simp only [fvB, mem_unionS, mem_removeS, mem_removeAllS] at h
    simp only [readsB, List.mem_append]
    rcases h with ⟨h, -⟩ | ⟨h, -⟩
    · exact Or.inl (ihB h)
    · exact Or.inr (ih h)

/-- The free-variable list is duplicate-free (it models a Go set). -/
theorem nodup_fvB {K : List String} {b : Block} : (fvB K b).Nodup := by
  induction b using fvB.induct K with
  | case1 => exact List.nodup_nil
  | case2 j y rs rest ih => exact nodup_unionS nodup_dedupS
  | case3 j y c args fl rest ih =>
    exact nodup_unionS (nodup_unionS (by split <;> simp))
  | case4 j y vs f rest ih => exact nodup_unionS (nodup_unionS nodup_dedupS)
  | case5 j y P B rest ihB ih => exact nodup_unionS (nodup_removeAllS ihB)

end FvLemmas

section BlockInduction

/-- Structural induction over blocks, with an induction hypothesis for the
body of a function-literal instruction. -/
theorem blockInd (motive : Block → Prop)
    (hnil : motive .nil)
    (hfn : ∀ j x P B rest, motive B → motive rest → motive (.cons (.mk j x (.fn P B)) rest))
    (hprim : ∀ j x rs rest, motive rest → motive (.cons (.mk j x (.prim rs)) rest))
    (happ : ∀ j x c args fl rest, motive rest → motive (.cons (.mk j x (.app c args fl)) rest))
    (hmk : ∀ j x vs f rest, motive rest → motive (.cons (.mk j x (.mkcls vs f)) rest)) :
    ∀ b, motive b := by
  have H : ∀ (n : Nat) (b : Block), sizeOf b ≤ n → motive b := by
    intro n
    induction n with
    | zero => intro b hb; cases b <;> simp_arith at hb
    | succ n ih =>
      intro b hb
      match b with
      | .nil => exact hnil
      | .cons (.mk j x (.fn P B)) rest =>
        refine hfn j x P B rest (ih B ?_) (ih rest ?_) <;> (simp at hb; omega)
      | .cons (.mk j x (.prim rs)) rest =>
        refine hprim j x rs rest (ih rest ?_); simp at hb; omega
      | .cons (.mk j x (.app c args fl)) rest =>
        refine happ j x c args fl rest (ih rest ?_); simp at hb; omega
      | .cons (.mk j x (.mkcls vs f)) rest =>
        refine hmk j x vs f rest (ih rest ?_); simp at hb; omega
  exact fun b => H (sizeOf b) b le_rfl

end BlockInduction

section ExploreInvariants

/-- `explore` never changes the committed known-function set: the only
insertion into `knownFuns` in the source is performed on a duplicate. -/
theorem explore_knownFuns (iter : List String → List String) (b : Block) (t : Trans) :
    (explore iter t b).knownFuns = t.knownFuns := by
  induction b using blockInd generalizing t with
  | hnil => rfl
  | hfn j x P B rest ihB ihrest =>
    simp only [explore]
    rw [ihrest]
    split
    · simp [ihB]
    · rfl
  | hprim j x rs rest ih => simp only [explore]; rw [ih]
  | happ j x c args fl rest ih =>
    simp only [explore]
    rw [ih]
    split <;> rfl
  | hmk j x vs f rest ih => simp only [explore]; rw [ih]

/-- Membership in `allFuns` lifts from a nested body to the enclosing
block. -/
theorem mem_allFuns_body {e : String × List String × Block} {j : Nat} {x : String}
    {P : List String} {B rest : Block} (h : e ∈ allFuns B) :
    e ∈ allFuns (.cons (.mk j x (.fn P B)) rest) := by
  simp [allFuns, h]

/-- Membership in `allFuns` lifts from the tail of a block. -/
theorem mem_allFuns_rest {e : String × List String × Block} {i : Insn} {rest : Block}
    (h : e ∈ allFuns rest) : e ∈ allFuns (.cons i rest) := by
  obtain ⟨j, x, v⟩ := i
  cases v <;> simp [allFuns, h]

/-- A function-literal instruction heads its own `allFuns` entry. -/
theorem mem_allFuns_head {j : Nat} {x : String} {P : List String} {B rest : Block} :
    (x, P, B) ∈ allFuns (.cons (.mk j x (.fn P B)) rest) := by
  simp [allFuns]

/-- Every closures entry of an `explore` result was already present or was
recorded, with the `closEntryOk` shape, for a function literal of the
explored block. -/
theorem explore_closures_sub (iter : List String → List String) (b : Block) (t : Trans)
    {e : String × List String} (he : e ∈ (explore iter t b).closures) :
    e ∈ t.closures ∨ closEntryOk iter t.knownFuns b e := by
  induction b using blockInd generalizing t with
  | hnil => exact Or.inl he
  | hfn j x P B rest ihB ihrest =>
    simp only [explore] at he
    rcases ihrest _ he with h | h
    · -- the entry comes from the state before the tail was explored
      split at h
      · -- closure branch: recorded here or inside the body
        rcases mem_setA h with h | h
        · rw [h]
          refine Or.inr ⟨P, B, mem_allFuns_head, ?_⟩
          rw [explore_knownFuns]
        · rcases ihB _ h with h | h
          · exact Or.inl h
          · obtain ⟨P', B', hm, hv⟩ := h
            exact Or.inr ⟨P', B', mem_allFuns_body hm, hv⟩
      · exact Or.inl h
    · obtain ⟨P', B', hm, hv⟩ := h
      rw [show (if removeAllS P (fvB (explore iter
          { t.dup with knownFuns := insertS x t.dup.knownFuns } B).knownFuns B) ≠ [] then _ else t).knownFuns
          = t.knownFuns from ?_] at hv
      · exact Or.inr ⟨P', B', mem_allFuns_rest hm, hv⟩
      · split
        · rw [explore_knownFuns]
        · rfl
  | hprim j x rs rest ih =>
    simp only [explore] at he
    rcases ih _ he with h | h
    · exact Or.inl h
    · obtain ⟨P', B', hm, hv⟩ := h
      exact Or.inr ⟨P', B', mem_allFuns_rest hm, hv⟩
  | happ j x c args fl rest ih =>
    simp only [explore] at he
    rcases ih _ he with h | h
    · split at h <;> exact Or.inl h
    · obtain ⟨P', B', hm, hv⟩ := h
      rw [show (if c ∈ t.knownFuns then { t with closureCalls := t.closureCalls ++ [j] }
          else t).knownFuns = t.knownFuns from by split <;> rfl] at hv
      exact Or.inr ⟨P', B', mem_allFuns_rest hm, hv⟩
  | hmk j x vs f rest ih =>
    simp only [explore] at he
    rcases ih _ he with h | h
    · exact Or.inl h
    · obtain ⟨P', B', hm, hv⟩ := h
      exact Or.inr ⟨P', B', mem_allFuns_rest hm, hv⟩

/-- Every key of the replaced-functions map of an `explore` result was
already present or is the id of an instruction of the explored block. -/
theorem explore_replKeys_sub (iter : List String → List String) (b : Block) (t : Trans)
    {k : Nat} (hk : k ∈ keysOf (explore iter t b).replacedFuns) :
    k ∈ keysOf t.replacedFuns ∨ k ∈ insnIds b := by
  induction b using blockInd generalizing t with
  | hnil => exact Or.inl hk
  | hfn j x P B rest ihB ihrest =>
    simp only [explore] at hk
    rcases keysOf_setA hk with h | h
    · subst h; right; simp [insnIds]
    · rcases ihrest _ h with h | h
      · split at h
        · rcases ihB _ h with h | h
          · exact Or.inl h
          · right; simp [insnIds]; tauto
        · exact Or.inl h
      · right; simp [insnIds]; tauto
  | hprim j x rs rest ih =>
    simp only [explore] at hk
    rcases ih _ hk with h | h
    · exact Or.inl h
    · right; simp [insnIds, insnIdsVal]; tauto
  | happ j x c args fl rest ih =>
    simp only [explore] at hk
    rcases ih _ hk with h | h
    · split at h <;> exact Or.inl h
    · right; simp [insnIds, insnIdsVal]; tauto
  | hmk j x vs f rest ih =>
    simp only [explore] at hk
    rcases ih _ hk with h | h
    · exact Or.inl h
    · right; simp [insnIds, insnIdsVal]; tauto

end ExploreInvariants

section KnownBranch

/-- Unfolding of `explore` at a function-literal instruction whose Known
hypothesis is confirmed: the free-variable test of the body (run on the
duplicate with the function's own name added to the known set) is empty, so
the duplicate is discarded and processing continues from the unchanged
committed state. -/
theorem explore_fn_known (iter : List String → List String) (t : Trans)
    (j : Nat) (x : String) (P : List String) (B rest : Block)
    (h : removeAllS P (fvB (insertS x t.knownFuns) B) = []) :
    explore iter t (.cons (.mk j x (.fn P B)) rest) =
      { explore iter t rest with
        closureBlockFreeVars :=
          setA x (fvB (explore iter t rest).knownFuns rest)
            (explore iter t rest).closureBlockFreeVars
        replacedFuns :=
          setA j
            (if x ∈ fvB (explore iter t rest).knownFuns rest then
              some ⟨(lookupA x (explore iter t rest).closures).getD [], x⟩
            else none)
            (explore iter t rest).replacedFuns } := by
  simp only [explore, Trans.dup, explore_knownFuns, h, ne_eq, eq_self_iff_true,
    not_true_eq_false, if_false]

end KnownBranch

section KeysHelpers

theorem mem_keysOf {κ α : Type} [DecidableEq κ] {x : κ} {l : List (κ × α)} :
    x ∈ keysOf l ↔ ∃ e ∈ l, e.1 = x := by
  simp [keysOf]

theorem mem_funIdents_of_allFuns {x : String} {P : List String} {B : Block} {b : Block}
    (h : (x, P, B) ∈ allFuns b) : x ∈ funIdents b := by
  simp only [funIdents, List.mem_map]
  exact ⟨(x, P, B), h, rfl⟩

end KeysHelpers

section ProgramClosures

/-- The rewrite phase passes the committed closures mapping through to the
program unchanged. -/
theorem rewritePhase_closures {t : Trans} {s : IRState} {p : Program} {s' : IRState}
    (h : rewritePhase t s = .ok (p, s')) : p.closures = t.closures := by
  simp only [rewritePhase] at h
  split at h
  · cases h
  · rw [Except.ok.injEq, Prod.mk.injEq] at h
    rw [← h.1]

/-- The closures mapping of a `Transform` result is the committed closures
mapping of the classification state. -/
theorem Transform_closures {iter : List String → List String} {ir : Block} {p : Program}
    (h : Transform iter ir = .ok p) :
    p.closures = (explore iter initTrans ir).closures := by
  simp only [Transform] at h
  cases hr : rewritePhase (explore iter initTrans ir) ⟨ir, []⟩ with
  | error e => rw [hr] at h; simp [Except.map] at h
  | ok pr =>
    obtain ⟨p1, s1⟩ := pr
    rw [hr] at h
    simp only [Except.map, Except.ok.injEq] at h
    subst h
    exact rewritePhase_closures hr

end ProgramClosures

section MarkingLemmas

theorem isFn_markVal {c : List Nat} {j : Nat} {v : Val} :
    (markVal c j v).isFn = v.isFn := by
  cases v <;> simp [markVal, Val.isFn]

theorem findIns_markB {c : List Nat} {j : Nat} {b : Block} :
    findIns j (markB c b) = (findIns j b).map (fun r => (r.1, markVal c j r.2)) := by
  induction b using blockInd with
  | hnil => rfl
  | hfn k x P B rest ihB ihrest =>
    by_cases hk : k = j
    · subst hk; simp [markB, findIns, markVal]
    · simp only [markB, findIns, hk, if_false, markVal, ihB, ihrest]
      cases findIns j B <;> rfl
  | hprim k x rs rest ih =>
    by_cases hk : k = j
    · subst hk; simp [markB, findIns, markVal]
    · simp [markB, findIns, hk, markVal, ih]
  | happ k x cal args fl rest ih =>
    by_cases hk : k = j
    · subst hk; simp [markB, findIns, markVal]
    · simp [markB, findIns, hk, markVal, ih]
  | hmk k x vs f rest ih =>
    by_cases hk : k = j
    · subst hk; simp [markB, findIns, markVal]
    · simp [markB, findIns, hk, markVal, ih]

theorem findInsVal_markVal {c : List Nat} {j k : Nat} {v : Val} :
    findInsVal j (markVal c k v) = (findInsVal j v).map (fun r => (r.1, markVal c j r.2)) := by
  cases v <;> simp [markVal, findInsVal, findIns_markB]

theorem findInDet_marked {c : List Nat} {j : Nat} {det : List (Nat × String × Val)} :
    findInDet j (det.map (fun e => (e.1, e.2.1, markVal c e.1 e.2.2)))
      = (findInDet j det).map (fun r => (r.1, markVal c j r.2)) := by
  induction det with
  | nil => rfl
  | cons e rest ih =>
    obtain ⟨k, x, v⟩ := e
    by_cases hk : k = j
    · subst hk; simp [findInDet]
    · simp only [List.map_cons, findInDet, hk, if_false, findInsVal_markVal, ih]
      cases findInsVal j v <;> rfl

theorem curIns_marked {c : List Nat} {j : Nat} {s : IRState} :
    curIns j ⟨markB c s.main, s.detached.map (fun e => (e.1, e.2.1, markVal c e.1 e.2.2))⟩
      = (curIns j s).map (fun r => (r.1, markVal c j r.2)) := by
  simp only [curIns, findIns_markB, findInDet_marked]
  cases findIns j s.main <;> rfl

end MarkingLemmas

section RewriteIdempotence

theorem map_self_of {α : Type} {f : α → α} {l : List α} (h : ∀ e ∈ l, f e = e) :
    l.map f = l := by
  induction l with
  | nil => rfl
  | cons e rest ih =>
    rw [List.map_cons, h e (by simp), ih (fun e' he' => h e' (by simp [he']))]

theorem flatMap_nil_of {α β : Type} {f : α → List β} {l : List α}
    (h : ∀ e ∈ l, f e = []) : l.flatMap f = [] := by
  induction l with
  | nil => rfl
  | cons e rest ih =>
    rw [List.flatMap_cons, h e (by simp), ih (fun e' he' => h e' (by simp [he']))]
    rfl

theorem mem_of_lookupA_some {κ α : Type} [DecidableEq κ] {k : κ} {v : α}
    {l : List (κ × α)} (h : lookupA k l = some v) : (k, v) ∈ l := by
  induction l with
  | nil => cases h
  | cons e rest ih =>
    obtain ⟨k0, v0⟩ := e
    by_cases hk : k0 = k
    · subst hk
      rw [lookupA, if_pos rfl] at h
      cases h
      exact List.mem_cons_self _ _
    · rw [lookupA, if_neg hk] at h
      exact List.mem_cons_of_mem _ (ih h)

theorem lookupA_isSome_of_mem {κ α : Type} [DecidableEq κ] {e : κ × α}
    {l : List (κ × α)} (h : e ∈ l) : ∃ v, lookupA e.1 l = some v := by
  induction l with
  | nil => cases h
  | cons e0 rest ih =>
    obtain ⟨k0, v0⟩ := e0
    by_cases hk : k0 = e.1
    · exact ⟨v0, by simp [lookupA, hk]⟩
    · rcases List.mem_cons.mp h with h | h
      · exact absurd (congrArg Prod.fst h).symm hk
      · simpa [lookupA, hk] using ih h

/-- Under all-removal decisions, every looked-up decision of a recorded key
is a removal. -/
theorem lookupA_none_decision {R : List (Nat × Option MakeCls)} {d : Nat × Option MakeCls}
    (hnone : ∀ e ∈ R, e.2 = none) (hd : d ∈ R) : lookupA d.1 R = some none := by
  obtain ⟨v, hv⟩ := lookupA_isSome_of_mem hd
  have h2 : v = none := hnone _ (mem_of_lookupA_some hv)
  rw [hv, h2]

theorem markedB_markB {c : List Nat} {b : Block} : markedB c (markB c b) = true := by
  induction b using blockInd with
  | hnil => rfl
  | hfn j x P B rest ihB ihrest => simp [markB, markVal, markedB, markedVal, ihB, ihrest]
  | hprim j x rs rest ih => simp [markB, markVal, markedB, markedVal, ih]
  | happ j x cal args fl rest ih =>
    simp only [markB, markVal, markedB, markedVal, ih, Bool.and_true]
    split <;> simp
  | hmk j x vs f rest ih => simp [markB, markVal, markedB, markedVal, ih]

theorem markB_of_marked {c : List Nat} {b : Block} (h : markedB c b = true) :
    markB c b = b := by
  induction b using blockInd with
  | hnil => rfl
  | hfn j x P B rest ihB ihrest =>
    simp only [markedB, markedVal, Bool.and_eq_true] at h
    simp [markB, markVal, ihB h.1, ihrest h.2]
  | hprim j x rs rest ih =>
    simp only [markedB, markedVal, Bool.and_eq_true] at h
    simp [markB, markVal, ih h.2]
  | happ j x cal args fl rest ih =>
    simp only [markedB, markedVal, Bool.and_eq_true] at h
    simp only [markB, markVal, ih h.2, Block.cons.injEq, Insn.mk.injEq, Val.app.injEq,
      and_true, true_and]
    rcases h with ⟨hflag, -⟩
    split at hflag
    · simp_all
    · simp_all
  | hmk j x vs f rest ih =>
    simp only [markedB, markedVal, Bool.and_eq_true] at h
    simp [markB, markVal, ih h.2]

theorem markVal_of_marked {c : List Nat} {j : Nat} {v : Val}
    (h : markedVal c j v = true) : markVal c j v = v := by
  cases v with
  | fn P B =>
    simp only [markedVal] at h
    simp [markVal, markB_of_marked h]
  | app cal args fl =>
    simp only [markedVal] at h
    simp only [markVal, Val.app.injEq, true_and]
    split at h
    · simp_all
    · simp_all
  | prim rs => rfl
  | mkcls vs f => rfl

/-- Applying the replacement decisions preserves marked-ness, both in the
resulting block and on every collected detached object. -/
theorem markedB_applyReplB {c : List Nat} {R : List (Nat × Option MakeCls)} {b : Block}
    (h : markedB c b = true) :
    markedB c (applyReplB R b).1 = true ∧
      ∀ e ∈ (applyReplB R b).2, markedVal c e.1 e.2.2 = true := by
  induction b using blockInd with
  | hnil => exact ⟨rfl, by simp [applyReplB]⟩
  | hfn j x P B rest ihB ihrest =>
    simp only [markedB, markedVal, Bool.and_eq_true] at h
    obtain ⟨hB, hrest⟩ := h
    obtain ⟨ihB1, ihB2⟩ := ihB hB
    obtain ⟨ihr1, ihr2⟩ := ihrest hrest
    simp only [applyReplB, applyReplVal]
    split
    · refine ⟨ihr1, ?_⟩
      intro e he
      rcases List.mem_cons.mp he with he | he
      · subst he
        simpa [markedVal] using ihB1
      · rcases List.mem_append.mp he with he | he
        · exact ihB2 e he
        · exact ihr2 e he
    · refine ⟨?_, ?_⟩
      · simpa [markedB, markedVal, ihB1] using ihr1
      · intro e he
        rcases List.mem_append.mp he with he | he
        · exact ihB2 e he
        · exact ihr2 e he
    · refine ⟨?_, ?_⟩
      · simpa [markedB, markedVal, ihB1] using ihr1
      · intro e he
        rcases List.mem_append.mp he with he | he
        · exact ihB2 e he
        · exact ihr2 e he
  | hprim j x rs rest ih =>
    simp only [markedB, markedVal, Bool.and_eq_true] at h
    obtain ⟨ihr1, ihr2⟩ := ih h.2
    simp only [applyReplB, applyReplVal]
    split
    · refine ⟨ihr1, ?_⟩
      intro e he
      rcases List.mem_cons.mp he with he | he
      · subst he
        rfl
      · simpa using ihr2 e (by simpa using he)
    · exact ⟨by simpa [markedB, markedVal] using ihr1, by simpa using ihr2⟩
    · exact ⟨by simpa [markedB, markedVal] using ihr1, by simpa using ihr2⟩
  | happ j x cal args fl rest ih =>
    simp only [markedB, markedVal, Bool.and_eq_true] at h
    obtain ⟨hflag, hrest⟩ := h
    obtain ⟨ihr1, ihr2⟩ := ih hrest
    simp only [applyReplB, applyReplVal]
    split
    · refine ⟨ihr1, ?_⟩
      intro e he
      rcases List.mem_cons.mp he with he | he
      · subst he
        simpa [markedVal] using hflag
      · simpa using ihr2 e (by simpa using he)
    · exact ⟨by simpa [markedB, markedVal] using ihr1, by simpa using ihr2⟩
    · refine ⟨?_, by simpa using ihr2⟩
      simpa [markedB, markedVal, hflag] using ihr1
  | hmk j x vs f rest ih =>
    simp only [markedB, markedVal, Bool.and_eq_true] at h
    obtain ⟨ihr1, ihr2⟩ := ih h.2
    simp only [applyReplB, applyReplVal]
    split
    · refine ⟨ihr1, ?_⟩
      intro e he
      rcases List.mem_cons.mp he with he | he
      · subst he
        rfl
      · simpa using ihr2 e (by simpa using he)
    · exact ⟨by simpa [markedB, markedVal] using ihr1, by simpa using ihr2⟩
    · exact ⟨by simpa [markedB, markedVal] using ihr1, by simpa using ihr2⟩

theorem insnIds_markB {c : List Nat} {b : Block} : insnIds (markB c b) = insnIds b := by
  induction b using blockInd with
  | hnil => rfl
  | hfn j x P B rest ihB ihrest => simp [markB, markVal, insnIds, insnIdsVal, ihB, ihrest]
  | hprim j x rs rest ih => simp [markB, markVal, insnIds, insnIdsVal, ih]
  | happ j x cal args fl rest ih => simp [markB, markVal, insnIds, insnIdsVal, ih]
  | hmk j x vs f rest ih => simp [markB, markVal, insnIds, insnIdsVal, ih]

theorem findIns_none_of_not_mem {j : Nat} {b : Block} (h : j ∉ insnIds b) :
    findIns j b = none := by
  induction b using blockInd with
  | hnil => rfl
  | hfn k x P B rest ihB ihrest =>
    simp only [insnIds, insnIdsVal, List.mem_cons, List.mem_append, not_or] at h
    obtain ⟨h1, h2, h3⟩ := h
    simp [findIns, Ne.symm h1, ihB h2, ihrest h3]
  | hprim k x rs rest ih =>
    simp only [insnIds, insnIdsVal, List.mem_cons, List.mem_append, not_or,
      List.not_mem_nil] at h
    simp [findIns, Ne.symm h.1, ih h.2.2]
  | happ k x cal args fl rest ih =>
    simp only [insnIds, insnIdsVal, List.mem_cons, List.mem_append, not_or,
      List.not_mem_nil] at h
    simp [findIns, Ne.symm h.1, ih h.2.2]
  | hmk k x vs f rest ih =>
    simp only [insnIds, insnIdsVal, List.mem_cons, List.mem_append, not_or,
      List.not_mem_nil] at h
    simp [findIns, Ne.symm h.1, ih h.2.2]

theorem findIns_isSome_of_mem {j : Nat} {b : Block} (h : j ∈ insnIds b) :
    ∃ r, findIns j b = some r := by
  induction b using blockInd with
  | hnil => simp [insnIds] at h
  | hfn k x P B rest ihB ihrest =>
    by_cases hk : k = j
    · exact ⟨(x, .fn P B), by simp [findIns, hk]⟩
    · simp only [insnIds, insnIdsVal, List.mem_cons, List.mem_append] at h
      rcases h with h | h | h
      · exact absurd h.symm hk
      · obtain ⟨r, hr⟩ := ihB h
        exact ⟨r, by simp [findIns, hk, hr]⟩
      · obtain ⟨r, hr⟩ := ihrest h
        cases hfB : findIns j B with
        | some r2 => exact ⟨r2, by simp [findIns, hk, hfB]⟩
        | none => exact ⟨r, by simp [findIns, hk, hfB, hr]⟩
  | hprim k x rs rest ih =>
    by_cases hk : k = j
    · exact ⟨(x, .prim rs), by simp [findIns, hk]⟩
    · simp only [insnIds, insnIdsVal, List.mem_cons, List.nil_append] at h
      rcases h with h | h
      · exact absurd h.symm hk
      · obtain ⟨r, hr⟩ := ih h
        exact ⟨r, by simp [findIns, hk, hr]⟩
  | happ k x cal args fl rest ih =>
    by_cases hk : k = j
    · exact ⟨(x, .app cal args fl), by simp [findIns, hk]⟩
    · simp only [insnIds, insnIdsVal, List.mem_cons, List.nil_append] at h
      rcases h with h | h
      · exact absurd h.symm hk
      · obtain ⟨r, hr⟩ := ih h
        exact ⟨r, by simp [findIns, hk, hr]⟩
  | hmk k x vs f rest ih =>
    by_cases hk : k = j
    · exact ⟨(x, .mkcls vs f), by simp [findIns, hk]⟩
    · simp only [insnIds, insnIdsVal, List.mem_cons, List.nil_append] at h
      rcases h with h | h
      · exact absurd h.symm hk
      · obtain ⟨r, hr⟩ := ih h
        exact ⟨r, by simp [findIns, hk, hr]⟩

/-- Every id in the rewritten block, and every id reachable through the
collected detached objects, comes from the original block. -/
theorem applyReplB_ids {R : List (Nat × Option MakeCls)} {b : Block} :
    (∀ k ∈ insnIds (applyReplB R b).1, k ∈ insnIds b) ∧
    (∀ e ∈ (applyReplB R b).2,
      e.1 ∈ insnIds b ∧ ∀ k ∈ insnIdsVal e.2.2, k ∈ insnIds b) := by
  induction b using blockInd with
  | hnil => exact ⟨fun k hk => hk, by simp [applyReplB]⟩
  | hfn j x P B rest ihB ihrest =>
    obtain ⟨ihB1, ihB2⟩ := ihB
    obtain ⟨ihr1, ihr2⟩ := ihrest
    have hlift : ∀ k, k ∈ insnIds B ∨ k ∈ insnIds rest ∨ k = j →
        k ∈ insnIds (Block.cons (.mk j x (.fn P B)) rest) := by
      intro k hk
      simp only [insnIds, insnIdsVal, List.mem_cons, List.mem_append]
      tauto
    simp only [applyReplB, applyReplVal]
    split
    · refine ⟨fun k hk => hlift k (Or.inr (Or.inl (ihr1 k hk))), ?_⟩
      intro e he
      rcases List.mem_cons.mp he with he | he
      · subst he
        exact ⟨hlift j (Or.inr (Or.inr rfl)),
          fun k hk => hlift k (Or.inl (ihB1 k (by simpa [insnIdsVal] using hk)))⟩
      · rcases List.mem_append.mp he with he | he
        · exact ⟨hlift _ (Or.inl (ihB2 e he).1),
            fun k hk => hlift k (Or.inl ((ihB2 e he).2 k hk))⟩
        · exact ⟨hlift _ (Or.inr (Or.inl (ihr2 e he).1)),
            fun k hk => hlift k (Or.inr (Or.inl ((ihr2 e he).2 k hk)))⟩
    · refine ⟨?_, ?_⟩
      · intro k hk
        simp only [insnIds, insnIdsVal, List.mem_cons, List.nil_append] at hk
        rcases hk with hk | hk
        · exact hlift k (Or.inr (Or.inr hk))
        · exact hlift k (Or.inr (Or.inl (ihr1 k hk)))
      · intro e he
        rcases List.mem_append.mp he with he | he
        · exact ⟨hlift _ (Or.inl (ihB2 e he).1),
            fun k hk => hlift k (Or.inl ((ihB2 e he).2 k hk))⟩
        · exact ⟨hlift _ (Or.inr (Or.inl (ihr2 e he).1)),
            fun k hk => hlift k (Or.inr (Or.inl ((ihr2 e he).2 k hk)))⟩
    · refine ⟨?_, ?_⟩
      · intro k hk
        simp only [insnIds, insnIdsVal, List.mem_cons, List.mem_append] at hk
        rcases hk with hk | hk | hk
        · exact hlift k (Or.inr (Or.inr hk))
        · exact hlift k (Or.inl (ihB1 k hk))
        · exact hlift k (Or.inr (Or.inl (ihr1 k hk)))
      · intro e he
        rcases List.mem_append.mp he with he | he
        · exact ⟨hlift _ (Or.inl (ihB2 e he).1),
            fun k hk => hlift k (Or.inl ((ihB2 e he).2 k hk))⟩
        · exact ⟨hlift _ (Or.inr (Or.inl (ihr2 e he).1)),
            fun k hk => hlift k (Or.inr (Or.inl ((ihr2 e he).2 k hk)))⟩
  | hprim j x rs rest ih =>
    obtain ⟨ihr1, ihr2⟩ := ih
    have hlift : ∀ k, k ∈ insnIds rest ∨ k = j →
        k ∈ insnIds (Block.cons (.mk j x (.prim rs)) rest) := by
      intro k hk
      simp only [insnIds, insnIdsVal, List.mem_cons, List.nil_append]
      tauto
    simp only [applyReplB, applyReplVal]
    split
    · refine ⟨fun k hk => hlift k (Or.inl (ihr1 k hk)), ?_⟩
      intro e he
      rcases List.mem_cons.mp he with he | he
      · subst he
        exact ⟨hlift j (Or.inr rfl), by simp [insnIdsVal]⟩
      · exact ⟨hlift _ (Or.inl (ihr2 e (by simpa using he)).1),
          fun k hk => hlift k (Or.inl ((ihr2 e (by simpa using he)).2 k hk))⟩
    · refine ⟨?_, ?_⟩
      · intro k hk
        simp only [insnIds, insnIdsVal, List.mem_cons, List.nil_append] at hk
        rcases hk with hk | hk
        · exact hlift k (Or.inr hk)
        · exact hlift k (Or.inl (ihr1 k hk))
      · intro e he
        exact ⟨hlift _ (Or.inl (ihr2 e (by simpa using he)).1),
          fun k hk => hlift k (Or.inl ((ihr2 e (by simpa using he)).2 k hk))⟩
    · refine ⟨?_, ?_⟩
      · intro k hk
        simp only [insnIds, insnIdsVal, List.mem_cons, List.nil_append] at hk
        rcases hk with hk | hk
        · exact hlift k (Or.inr hk)
        · exact hlift k (Or.inl (ihr1 k hk))
      · intro e he
        exact ⟨hlift _ (Or.inl (ihr2 e (by simpa using he)).1),
          fun k hk => hlift k (Or.inl ((ihr2 e (by simpa using he)).2 k hk))⟩
  | happ j x cal args fl rest ih =>
    obtain ⟨ihr1, ihr2⟩ := ih
    have hlift : ∀ k, k ∈ insnIds rest ∨ k = j →
        k ∈ insnIds (Block.cons (.mk j x (.app cal args fl)) rest) := by
      intro k hk
      simp only [insnIds, insnIdsVal, List.mem_cons, List.nil_append]
      tauto
    simp only [applyReplB, applyReplVal]
    split
    · refine ⟨fun k hk => hlift k (Or.inl (ihr1 k hk)), ?_⟩
      intro e he
      rcases List.mem_cons.mp he with he | he
      · subst he
        exact ⟨hlift j (Or.inr rfl), by simp [insnIdsVal]⟩
      · exact ⟨hlift _ (Or.inl (ihr2 e (by simpa using he)).1),
          fun k hk => hlift k (Or.inl ((ihr2 e (by simpa using he)).2 k hk))⟩
    · refine ⟨?_, ?_⟩
      · intro k hk
        simp only [insnIds, insnIdsVal, List.mem_cons, List.nil_append] at hk
        rcases hk with hk | hk
        · exact hlift k (Or.inr hk)
        · exact hlift k (Or.inl (ihr1 k hk))
      · intro e he
        exact ⟨hlift _ (Or.inl (ihr2 e (by simpa using he)).1),
          fun k hk => hlift k (Or.inl ((ihr2 e (by simpa using he)).2 k hk))⟩
    · refine ⟨?_, ?_⟩
      · intro k hk
        simp only [insnIds, insnIdsVal, List.mem_cons, List.nil_append] at hk
        rcases hk with hk | hk
        · exact hlift k (Or.inr hk)
        · exact hlift k (Or.inl (ihr1 k hk))
      · intro e he
        exact ⟨hlift _ (Or.inl (ihr2 e (by simpa using he)).1),
          fun k hk => hlift k (Or.inl ((ihr2 e (by simpa using he)).2 k hk))⟩
  | hmk j x vs f rest ih =>
    obtain ⟨ihr1, ihr2⟩ := ih
    have hlift : ∀ k, k ∈ insnIds rest ∨ k = j →
        k ∈ insnIds (Block.cons (.mk j x (.mkcls vs f)) rest) := by
      intro k hk
      simp only [insnIds, insnIdsVal, List.mem_cons, List.nil_append]
      tauto
    simp only [applyReplB, applyReplVal]
    split
    · refine ⟨fun k hk => hlift k (Or.inl (ihr1 k hk)), ?_⟩
      intro e he
      rcases List.mem_cons.mp he with he | he
      · subst he
        exact ⟨hlift j (Or.inr rfl), by simp [insnIdsVal]⟩
      · exact ⟨hlift _ (Or.inl (ihr2 e (by simpa using he)).1),
          fun k hk => hlift k (Or.inl ((ihr2 e (by simpa using he)).2 k hk))⟩
    · refine ⟨?_, ?_⟩
      · intro k hk
        simp only [insnIds, insnIdsVal, List.mem_cons, List.nil_append] at hk
        rcases hk with hk | hk
        · exact hlift k (Or.inr hk)
        · exact hlift k (Or.inl (ihr1 k hk))
      · intro e he
        exact ⟨hlift _ (Or.inl (ihr2 e (by simpa using he)).1),
          fun k hk => hlift k (Or.inl ((ihr2 e (by simpa using he)).2 k hk))⟩
    · refine ⟨?_, ?_⟩
      · intro k hk
        simp only [insnIds, insnIdsVal, List.mem_cons, List.nil_append] at hk
        rcases hk with hk | hk
        · exact hlift k (Or.inr hk)
        · exact hlift k (Or.inl (ihr1 k hk))
      · intro e he
        exact ⟨hlift _ (Or.inl (ihr2 e (by simpa using he)).1),
          fun k hk => hlift k (Or.inl ((ihr2 e (by simpa using he)).2 k hk))⟩

/-- Under all-removal decisions, every id surviving in the rewritten block,
and every id inside a collected detached object's body, has no recorded
decision. -/
theorem applyReplB_none_lookups {R : List (Nat × Option MakeCls)} {b : Block}
    (hnone : ∀ e ∈ R, e.2 = none) :
    (∀ k ∈ insnIds (applyReplB R b).1, lookupA k R = none) ∧
    (∀ e ∈ (applyReplB R b).2, ∀ k ∈ insnIdsVal e.2.2, lookupA k R = none) := by
  induction b using blockInd with
  | hnil => exact ⟨by simp [applyReplB, insnIds], by simp [applyReplB]⟩
  | hfn j x P B rest ihB ihrest =>
    obtain ⟨ihB1, ihB2⟩ := ihB
    obtain ⟨ihr1, ihr2⟩ := ihrest
    simp only [applyReplB, applyReplVal]
    split
    · refine ⟨ihr1, ?_⟩
      intro e he
      rcases List.mem_cons.mp he with he | he
      · subst he
        intro k hk
        exact ihB1 k (by simpa [insnIdsVal] using hk)
      · rcases List.mem_append.mp he with he | he
        · exact ihB2 e he
        · exact ihr2 e he
    · rename_i m heq
      have := hnone _ (mem_of_lookupA_some heq)
      cases this
    · rename_i heq
      refine ⟨?_, ?_⟩
      · intro k hk
        simp only [insnIds, insnIdsVal, List.mem_cons, List.mem_append] at hk
        rcases hk with hk | hk | hk
        · subst hk; exact heq
        · exact ihB1 k hk
        · exact ihr1 k hk
      · intro e he
        rcases List.mem_append.mp he with he | he
        · exact ihB2 e he
        · exact ihr2 e he
  | hprim j x rs rest ih =>
    obtain ⟨ihr1, ihr2⟩ := ih
    simp only [applyReplB, applyReplVal]
    split
    · refine ⟨ihr1, ?_⟩
      intro e he
      rcases List.mem_cons.mp he with he | he
      · subst he; simp [insnIdsVal]
      · exact ihr2 e (by simpa using he)
    · rename_i m heq
      have := hnone _ (mem_of_lookupA_some heq)
      cases this
    · rename_i heq
      refine ⟨?_, fun e he => ihr2 e (by simpa using he)⟩
      intro k hk
      simp only [insnIds, insnIdsVal, List.mem_cons, List.nil_append] at hk
      rcases hk with hk | hk
      · subst hk; exact heq
      · exact ihr1 k hk
  | happ j x cal args fl rest ih =>
    obtain ⟨ihr1, ihr2⟩ := ih
    simp only [applyReplB, applyReplVal]
    split
    · refine ⟨ihr1, ?_⟩
      intro e he
      rcases List.mem_cons.mp he with he | he
      · subst he; simp [insnIdsVal]
      · exact ihr2 e (by simpa using he)
    · rename_i m heq
      have := hnone _ (mem_of_lookupA_some heq)
      cases this
    · rename_i heq
      refine ⟨?_, fun e he => ihr2 e (by simpa using he)⟩
      intro k hk
      simp only [insnIds, insnIdsVal, List.mem_cons, List.nil_append] at hk
      rcases hk with hk | hk
      · subst hk; exact heq
      · exact ihr1 k hk
  | hmk j x vs f rest ih =>
    obtain ⟨ihr1, ihr2⟩ := ih
    simp only [applyReplB, applyReplVal]
    split
    · refine ⟨ihr1, ?_⟩
      intro e he
      rcases List.mem_cons.mp he with he | he
      · subst he; simp [insnIdsVal]
      · exact ihr2 e (by simpa using he)
    · rename_i m heq
      have := hnone _ (mem_of_lookupA_some heq)
      cases this
    · rename_i heq
      refine ⟨?_, fun e he => ihr2 e (by simpa using he)⟩
      intro k hk
      simp only [insnIds, insnIdsVal, List.mem_cons, List.nil_append] at hk
      rcases hk with hk | hk
      · subst hk; exact heq
      · exact ihr1 k hk

/-- A block disjoint from the decision keys is rewritten to itself, with
nothing detached. -/
theorem applyReplB_id_of_disjoint {R : List (Nat × Option MakeCls)} {b : Block}
    (h : ∀ k ∈ insnIds b, lookupA k R = none) : applyReplB R b = (b, []) := by
  induction b using blockInd with
  | hnil => rfl
  | hfn j x P B rest ihB ihrest =>
    have hj : lookupA j R = none := h j (by simp [insnIds])
    have hB := ihB (fun k hk => h k (by simp [insnIds, insnIdsVal, hk]))
    have hr := ihrest (fun k hk => h k (by simp [insnIds, insnIdsVal, hk]))
    simp [applyReplB, applyReplVal, hj, hB, hr]
  | hprim j x rs rest ih =>
    have hj : lookupA j R = none := h j (by simp [insnIds])
    have hr := ih (fun k hk => h k (by simp [insnIds, insnIdsVal, hk]))
    simp [applyReplB, applyReplVal, hj, hr]
  | happ j x cal args fl rest ih =>
    have hj : lookupA j R = none := h j (by simp [insnIds])
    have hr := ih (fun k hk => h k (by simp [insnIds, insnIdsVal, hk]))
    simp [applyReplB, applyReplVal, hj, hr]
  | hmk j x vs f rest ih =>
    have hj : lookupA j R = none := h j (by simp [insnIds])
    have hr := ih (fun k hk => h k (by simp [insnIds, insnIdsVal, hk]))
    simp [applyReplB, applyReplVal, hj, hr]

theorem findInDet_append {j : Nat} {l1 l2 : List (Nat × String × Val)} :
    findInDet j (l1 ++ l2) =
      match findInDet j l1 with
      | some r => some r
      | none => findInDet j l2 := by
  induction l1 with
  | nil => rfl
  | cons e rest ih =>
    obtain ⟨k, x, v⟩ := e
    by_cases hk : k = j
    · simp [findInDet, hk]
    · simp only [List.cons_append, findInDet, hk, if_false, ih]
      cases findInsVal j v with
      | some r => rfl
      | none => exact ih

theorem findInDet_none_of_not_mem {j : Nat} {l : List (Nat × String × Val)}
    (h : j ∉ detIds l) : findInDet j l = none := by
  induction l with
  | nil => rfl
  | cons e rest ih =>
    obtain ⟨k, x, v⟩ := e
    simp only [detIds, List.flatMap_cons, List.mem_append, List.mem_cons, not_or] at h
    obtain ⟨⟨h1, h2⟩, h3⟩ := h
    have hval : findInsVal j v = none := by
      cases v with
      | fn P B => exact findIns_none_of_not_mem (by simpa [insnIdsVal] using h2)
      | prim rs => rfl
      | app c a fl => rfl
      | mkcls vs f => rfl
    simp [findInDet, Ne.symm h1, hval, ih (by simpa [detIds] using h3)]

/-- A pointer absent from a block is also absent from the detached objects
collected while rewriting it. -/
theorem findInDet_applyReplB_none {R : List (Nat × Option MakeCls)} {b : Block} {k : Nat}
    (h : findIns k b = none) : findInDet k (applyReplB R b).2 = none := by
  apply findInDet_none_of_not_mem
  intro hk
  have hmem : k ∈ insnIds b := by
    simp only [detIds, List.mem_flatMap, List.mem_cons] at hk
    obtain ⟨e, he, hk⟩ := hk
    rcases hk with hk | hk
    · exact hk ▸ (applyReplB_ids.2 e he).1
    · exact (applyReplB_ids.2 e he).2 k hk
  obtain ⟨r, hr⟩ := findIns_isSome_of_mem hmem
  rw [h] at hr
  cases hr

/-- Under all-removal decisions, a pointer that reached an instruction of the
block reaches, after the rewrite, the collected detached object carrying the
instruction's rewritten value. -/
theorem findInDet_applyReplB {R : List (Nat × Option MakeCls)} {b : Block}
    (hnone : ∀ e ∈ R, e.2 = none) :
    ∀ {k : Nat} {x : String} {v : Val}, findIns k b = some (x, v) →
      lookupA k R = some none →
      findInDet k (applyReplB R b).2 = some (x, (applyReplVal R v).1) := by
  induction b using blockInd with
  | hnil => intro k x v hf _; cases hf
  | hfn j y P B rest ihB ihrest =>
    intro k x v hf hlk
    by_cases hk : j = k
    · subst hk
      rw [show findIns j (Block.cons (.mk j y (.fn P B)) rest) = some (y, .fn P B) from by
        simp [findIns]] at hf
      cases hf
      simp only [applyReplB, applyReplVal]
      rw [hlk]
      simp [findInDet]
    · rw [show findIns k (Block.cons (.mk j y (.fn P B)) rest) =
          (match findIns k B with | some r => some r | none => findIns k rest) from by
        simp [findIns, hk]] at hf
      have hinner : findIns k (applyReplB R B).1 = none := by
        apply findIns_none_of_not_mem
        intro hmem
        have h0 := (applyReplB_none_lookups (b := B) hnone).1 k hmem
        rw [h0] at hlk
        cases hlk
      cases hfB : findIns k B with
      | some r =>
        rw [hfB] at hf
        cases hf
        have hd := ihB hfB hlk
        simp only [applyReplB, applyReplVal]
        cases hR : lookupA j R with
        | none =>
          rw [findInDet_append, hd]
        | some mo =>
          cases mo with
          | none =>
            simp only [findInDet, hk, if_false, findInsVal, hinner]
            rw [findInDet_append, hd]
          | some mm =>
            have h0 := hnone _ (mem_of_lookupA_some hR)
            cases h0
      | none =>
        rw [hfB] at hf
        have hd := ihrest hf hlk
        have hpv2 : findInDet k (applyReplB R B).2 = none :=
          findInDet_applyReplB_none hfB
        simp only [applyReplB, applyReplVal]
        cases hR : lookupA j R with
        | none =>
          rw [findInDet_append, hpv2, hd]
        | some mo =>
          cases mo with
          | none =>
            simp only [findInDet, hk, if_false, findInsVal, hinner]
            rw [findInDet_append, hpv2, hd]
          | some mm =>
            have h0 := hnone _ (mem_of_lookupA_some hR)
            cases h0
  | hprim j y rs rest ih =>
    intro k x v hf hlk
    by_cases hk : j = k
    · subst hk
      rw [show findIns j (Block.cons (.mk j y (.prim rs)) rest) = some (y, .prim rs) from by
        simp [findIns]] at hf
      cases hf
      simp only [applyReplB, applyReplVal]
      rw [hlk]
      simp [findInDet]
    · rw [show findIns k (Block.cons (.mk j y (.prim rs)) rest) = findIns k rest from by
        simp [findIns, hk]] at hf
      have hd := ih hf hlk
      simp only [applyReplB, applyReplVal]
      cases hR : lookupA j R with
      | none => simpa [findInDet_append] using hd
      | some mo =>
        cases mo with
        | none =>
          simp only [findInDet, hk, if_false, findInsVal]
          simpa [findInDet_append] using hd
        | some mm =>
          have h0 := hnone _ (mem_of_lookupA_some hR)
          cases h0
  | happ j y cal args fl rest ih =>
    intro k x v hf hlk
    by_cases hk : j = k
    · subst hk
      rw [show findIns j (Block.cons (.mk j y (.app cal args fl)) rest)
          = some (y, .app cal args fl) from by simp [findIns]] at hf
      cases hf
      simp only [applyReplB, applyReplVal]
      rw [hlk]
      simp [findInDet]
    · rw [show findIns k (Block.cons (.mk j y (.app cal args fl)) rest)
          = findIns k rest from by simp [findIns, hk]] at hf
      have hd := ih hf hlk
      simp only [applyReplB, applyReplVal]
      cases hR : lookupA j R with
      | none => simpa [findInDet_append] using hd
      | some mo =>
        cases mo with
        | none =>
          simp only [findInDet, hk, if_false, findInsVal]
          simpa [findInDet_append] using hd
        | some mm =>
          have h0 := hnone _ (mem_of_lookupA_some hR)
          cases h0
  | hmk j y vs f rest ih =>
    intro k x v hf hlk
    by_cases hk : j = k
    · subst hk
      rw [show findIns j (Block.cons (.mk j y (.mkcls vs f)) rest)
          = some (y, .mkcls vs f) from by simp [findIns]] at hf
      cases hf
      simp only [applyReplB, applyReplVal]
      rw [hlk]
      simp [findInDet]
    · rw [show findIns k (Block.cons (.mk j y (.mkcls vs f)) rest)
          = findIns k rest from by simp [findIns, hk]] at hf
      have hd := ih hf hlk
      simp only [applyReplB, applyReplVal]
      cases hR : lookupA j R with
      | none => simpa [findInDet_append] using hd
      | some mo =>
        cases mo with
        | none =>
          simp only [findInDet, hk, if_false, findInsVal]
          simpa [findInDet_append] using hd
        | some mm =>
          have h0 := hnone _ (mem_of_lookupA_some hR)
          cases h0

theorem isFn_applyReplVal {R : List (Nat × Option MakeCls)} {v : Val} :
    ((applyReplVal R v).1).isFn = v.isFn := by
  cases v <;> rfl

theorem applyReplVal_id_of_disjoint {R : List (Nat × Option MakeCls)} {v : Val}
    (h : ∀ k ∈ insnIdsVal v, lookupA k R = none) : applyReplVal R v = (v, []) := by
  cases v with
  | fn P B =>
    simp [applyReplVal,
      applyReplB_id_of_disjoint (fun k hk => h k (by simpa [insnIdsVal] using hk))]
  | prim rs => rfl
  | app c a fl => rfl
  | mkcls vs f => rfl

end RewriteIdempotence

section MapIterLemmas

variable {iter : List String → List String}

theorem map_setA {κ α β : Type} [DecidableEq κ] (g : α → β) (k : κ) (v : α)
    (l : List (κ × α)) :
    (setA k v l).map (fun e => (e.1, g e.2)) = setA k (g v) (l.map (fun e => (e.1, g e.2))) := by
  induction l with
  | nil => rfl
  | cons e rest ih =>
    obtain ⟨k0, v0⟩ := e
    by_cases hk : k0 = k <;> simp [setA, hk, ih]

theorem lookupA_map {κ α β : Type} [DecidableEq κ] (g : α → β) (k : κ)
    (l : List (κ × α)) :
    lookupA k (l.map (fun e => (e.1, g e.2))) = (lookupA k l).map g := by
  induction l with
  | nil => rfl
  | cons e rest ih =>
    obtain ⟨k0, v0⟩ := e
    by_cases hk : k0 = k <;> simp [lookupA, hk, ih]

theorem mapIterT_knownFuns {t : Trans} : (mapIterT iter t).knownFuns = t.knownFuns := rfl

theorem mapIterT_closureCalls {t : Trans} :
    (mapIterT iter t).closureCalls = t.closureCalls := rfl

theorem mapIterT_closures {t : Trans} :
    (mapIterT iter t).closures = t.closures.map (fun e => (e.1, iter e.2)) := rfl

theorem mapIterT_replacedFuns {t : Trans} :
    (mapIterT iter t).replacedFuns
      = t.replacedFuns.map (fun e => (e.1, e.2.map (fun m => ⟨iter m.vars, m.name⟩))) := rfl

/-- The classification engine commutes with reordering every recorded
capture list by `iter`: a run whose `nameSet.toArray` enumerates in order
`iter` produces exactly the canonical run's state with `iter` applied to each
recorded capture list.  (`iter` feeds back into no branch condition: the only
reads of recorded capture lists pass them through unchanged.) -/
theorem explore_mapIter (iter : List String → List String) (hnil : iter [] = [])
    (b : Block) : ∀ t : Trans,
    explore iter (mapIterT iter t) b = mapIterT iter (explore (fun l => l) t b) := by
  induction b using blockInd with
  | hnil => intro t; rfl
  | hfn j x P B rest ihB ihrest =>
    intro t
    simp only [explore]
    rw [show ({ (mapIterT iter t).dup with
        knownFuns := insertS x (mapIterT iter t).dup.knownFuns } : Trans)
        = mapIterT iter { t.dup with knownFuns := insertS x t.dup.knownFuns } from rfl]
    rw [ihB, ihB]
    simp only [mapIterT_knownFuns]
    split <;> rename_i hcond
    · generalize hu1 : explore (fun l => l) t B = u1
      obtain ⟨k1, r1, c1, cl1, bf1⟩ := u1
      simp only [mapIterT]
      have hbr : (⟨k1,
          r1.map (fun e => (e.1, e.2.map (fun m => ⟨iter m.vars, m.name⟩))),
          c1,
          setA x (iter (removeAllS P (fvB k1 B))) (cl1.map (fun e => (e.1, iter e.2))),
          bf1⟩ : Trans)
          = mapIterT iter ⟨k1, r1, c1, setA x (removeAllS P (fvB k1 B)) cl1, bf1⟩ := by
        simp [mapIterT, map_setA]
      rw [hbr, ihrest]
      generalize explore (fun l => l) ⟨k1, r1, c1, setA x (removeAllS P (fvB k1 B)) cl1, bf1⟩ rest = u2
      obtain ⟨k2, r2, c2, cl2, bf2⟩ := u2
      simp only [mapIterT, lookupA_map]
      by_cases hx : x ∈ fvB k2 rest
      · simp only [hx, if_true]
        cases hlo : lookupA x cl2 with
        | none => simp [map_setA, hnil]
        | some v => simp [map_setA]
      · simp [hx, map_setA]
    · rw [ihrest]
      generalize explore (fun l => l) t rest = u2
      obtain ⟨k2, r2, c2, cl2, bf2⟩ := u2
      simp only [mapIterT, lookupA_map]
      by_cases hx : x ∈ fvB k2 rest
      · simp only [hx, if_true]
        cases hlo : lookupA x cl2 with
        | none => simp [map_setA, hnil]
        | some v => simp [map_setA]
      · simp [hx, map_setA]
  | hprim j x rs rest ih => exact fun t => ih _
  | happ j x c args fl rest ih =>
    intro t
    simp only [explore, mapIterT_knownFuns]
    split
    · exact ih { t with closureCalls := t.closureCalls ++ [j] }
    · exact ih t
  | hmk j x vs f rest ih => exact fun t => ih _

theorem noMkclsB_markB {c : List Nat} {b : Block} :
    noMkclsB (markB c b) = noMkclsB b := by
  induction b using blockInd with
  | hnil => rfl
  | hfn j x P B rest ihB ihrest =>
    simp [markB, markVal, noMkclsB, noMkclsVal, ihB, ihrest]
  | hprim j x rs rest ih => simp [markB, markVal, noMkclsB, noMkclsVal, ih]
  | happ j x cal args fl rest ih => simp [markB, markVal, noMkclsB, noMkclsVal, ih]
  | hmk j x vs f rest ih => simp [markB, markVal, noMkclsB, noMkclsVal, ih]

theorem findIns_noMkcls {j : Nat} {b : Block} {x : String} {v : Val}
    (hf : findIns j b = some (x, v)) (hnm : noMkclsB b = true) :
    noMkclsVal v = true := by
  induction b using blockInd with
  | hnil => cases hf
  | hfn k y P B rest ihB ihrest =>
    simp only [noMkclsB, noMkclsVal, Bool.and_eq_true] at hnm
    by_cases hk : k = j
    · rw [show findIns j (Block.cons (.mk k y (.fn P B)) rest)
          = some (y, .fn P B) from by simp [findIns, hk]] at hf
      cases hf
      simpa [noMkclsVal] using hnm.1
    · rw [show findIns j (Block.cons (.mk k y (.fn P B)) rest)
          = (match findIns j B with | some r => some r | none => findIns j rest) from by
        simp [findIns, hk]] at hf
      cases hfB : findIns j B with
      | some r =>
        rw [hfB] at hf
        cases hf
        exact ihB hfB (by simpa [noMkclsVal] using hnm.1)
      | none =>
        rw [hfB] at hf
        exact ihrest hf hnm.2
  | hprim k y rs rest ih =>
    simp only [noMkclsB, noMkclsVal, Bool.and_eq_true] at hnm
    by_cases hk : k = j
    · rw [show findIns j (Block.cons (.mk k y (.prim rs)) rest)
          = some (y, .prim rs) from by simp [findIns, hk]] at hf
      cases hf
      rfl
    · rw [show findIns j (Block.cons (.mk k y (.prim rs)) rest) = findIns j rest from by
        simp [findIns, hk]] at hf
      exact ih hf hnm.2
  | happ k y cal args fl rest ih =>
    simp only [noMkclsB, noMkclsVal, Bool.and_eq_true] at hnm
    by_cases hk : k = j
    · rw [show findIns j (Block.cons (.mk k y (.app cal args fl)) rest)
          = some (y, .app cal args fl) from by simp [findIns, hk]] at hf
      cases hf
      rfl
    · rw [show findIns j (Block.cons (.mk k y (.app cal args fl)) rest) = findIns j rest from by
        simp [findIns, hk]] at hf
      exact ih hf hnm.2
  | hmk k y vs f rest ih =>
    simp only [noMkclsB, noMkclsVal, Bool.and_eq_true] at hnm
    by_cases hk : k = j
    · rw [show findIns j (Block.cons (.mk k y (.mkcls vs f)) rest)
          = some (y, .mkcls vs f) from by simp [findIns, hk]] at hf
      cases hf
      simp [noMkclsVal] at hnm
    · rw [show findIns j (Block.cons (.mk k y (.mkcls vs f)) rest) = findIns j rest from by
        simp [findIns, hk]] at hf
      exact ih hf hnm.2

/-- Applying the reordered decisions to a MakeCls-free block produces the
canonical rewritten block with every inserted capture list reordered. -/
theorem applyReplB_mapIter {iter : List String → List String}
    {R : List (Nat × Option MakeCls)} {b : Block} (hnm : noMkclsB b = true) :
    (applyReplB (R.map (fun e => (e.1, e.2.map (fun m => ⟨iter m.vars, m.name⟩)))) b).1
      = mapIterB iter (applyReplB R b).1 := by
  induction b using blockInd with
  | hnil => rfl
  | hfn j x P B rest ihB ihrest =>
    simp only [noMkclsB, noMkclsVal, Bool.and_eq_true] at hnm
    simp only [applyReplB, applyReplVal, lookupA_map]
    cases hR : lookupA j R with
    | none =>
      simp [ihB hnm.1, ihrest hnm.2, mapIterB, mapIterVal]
    | some mo =>
      cases mo with
      | none => simp [ihrest hnm.2]
      | some m => simp [ihrest hnm.2, mapIterB, mapIterVal]
  | hprim j x rs rest ih =>
    simp only [noMkclsB, noMkclsVal, Bool.and_eq_true] at hnm
    simp only [applyReplB, applyReplVal, lookupA_map]
    cases hR : lookupA j R with
    | none => simp [ih hnm.2, mapIterB, mapIterVal]
    | some mo =>
      cases mo with
      | none => simp [ih hnm.2]
      | some m => simp [ih hnm.2, mapIterB, mapIterVal]
  | happ j x cal args fl rest ih =>
    simp only [noMkclsB, noMkclsVal, Bool.and_eq_true] at hnm
    simp only [applyReplB, applyReplVal, lookupA_map]
    cases hR : lookupA j R with
    | none => simp [ih hnm.2, mapIterB, mapIterVal]
    | some mo =>
      cases mo with
      | none => simp [ih hnm.2]
      | some m => simp [ih hnm.2, mapIterB, mapIterVal]
  | hmk j x vs f rest ih =>
    simp only [noMkclsB, noMkclsVal, Bool.and_eq_true] at hnm
    simp at hnm

/-- Whole-transform simulation: running `Transform` under an arbitrary
enumeration order `iter` (fixing only the empty set) on a MakeCls-free input
equals the canonical run with `iter` mapped over every capture list of the
output Program. -/
theorem transform_mapIter (iter : List String → List String) (hnil : iter [] = [])
    (ir : Block) (hnm : noMkclsB ir = true) :
    Transform iter ir = (Transform (fun l => l) ir).map (mapIterP iter) := by
  have hSIM : explore iter initTrans ir
      = mapIterT iter (explore (fun l => l) initTrans ir) :=
    explore_mapIter iter hnil ir initTrans
  simp only [Transform]
  rw [hSIM]
  generalize explore (fun l => l) initTrans ir = t0
  have hnm1 : noMkclsB (markB t0.closureCalls ir) = true := by
    rw [noMkclsB_markB]; exact hnm
  simp only [rewritePhase, mapIterT_closureCalls, mapIterT_replacedFuns,
    List.any_map, Function.comp_def, List.map_nil, List.nil_append, List.flatMap_nil]
  split <;> rename_i hc
  · rfl
  · simp only [Except.map, mapIterP, mapIterT_closures]
    congr 2
    · rw [List.filterMap_map, List.map_filterMap]
      apply List.filterMap_congr
      intro d hd
      simp only [Function.comp_def]
      cases hcur : curIns d.1 ⟨markB t0.closureCalls ir, []⟩ with
      | none => simp [hcur]
      | some r =>
        obtain ⟨x, v⟩ := r
        cases v with
        | fn P B =>
          have hfind : findIns d.1 (markB t0.closureCalls ir) = some (x, .fn P B) := by
            cases hf : findIns d.1 (markB t0.closureCalls ir) with
            | some r2 => rw [show curIns d.1 ⟨markB t0.closureCalls ir, []⟩ = some r2 from by
                simp [curIns, hf]] at hcur
                         cases hcur
                         rfl
            | none => rw [show curIns d.1 ⟨markB t0.closureCalls ir, []⟩ = none from by
                simp [curIns, hf, findInDet]] at hcur
                      cases hcur
          have hnmB : noMkclsB B = true := by
            have h2 := findIns_noMkcls hfind hnm1
            simpa [noMkclsVal] using h2
          simp [hcur, applyReplB_mapIter hnmB]
        | prim rs => simp [hcur]
        | app cal args fl => simp [hcur]
        | mkcls vs f => simp [hcur]
    · exact applyReplB_mapIter hnm1

end MapIterLemmas

/-! # The claims -/

/-- C5: a directly self-recursive function with no free variables besides its
parameters and its own name is classified Known: the hypothesis step analyses
its body with its own name inserted in the known set (`hfv` is the source's
emptiness test of `freeVars(body) \ params` under that state, which a
self-call passes because a known callee is not a free variable), the
backtrack branch is not taken, and no closures entry is recorded for it. -/
theorem c5_self_recursive_known (iter : List String → List String) (t : Trans)
    (j : Nat) (x : String) (P : List String) (B rest : Block)
    (hfv : removeAllS P (fvB (insertS x t.knownFuns) B) = [])
    (hcl : x ∉ keysOf t.closures) (hrest : x ∉ funIdents rest) :
    x ∉ keysOf (explore iter t (.cons (.mk j x (.fn P B)) rest)).closures := by
  rw [explore_fn_known iter t j x P B rest hfv]
  intro hx
  rcases mem_keysOf.mp hx with ⟨e, he, hex⟩
  rcases explore_closures_sub iter rest t he with h | h
  · exact hcl (mem_keysOf.mpr ⟨e, h, hex⟩)
  · obtain ⟨P', B', hm, -⟩ := h
    exact hrest (hex ▸ mem_funIdents_of_allFuns hm)

/-- C5 witness: the self-recursive program `exSelf` (`f(x) { r := f x }`)
satisfies the hypotheses, and `f` ends with no closures entry. -/
theorem c5_witness :
    (removeAllS ["x"] (fvB (insertS "f" initTrans.knownFuns)
        (.cons (.mk 10 "r" (.app "f" ["x"] false)) .nil)) = [] ∧
      "f" ∉ keysOf initTrans.closures ∧
      "f" ∉ funIdents (.cons (.mk 2 "w" (.prim [])) .nil)) ∧
    "f" ∉ keysOf (explore idIter initTrans exSelf).closures :=
  ⟨⟨by decide, by decide, by decide⟩,
    c5_self_recursive_known idIter initTrans 1 "f" ["x"]
      (.cons (.mk 10 "r" (.app "f" ["x"] false)) .nil)
      (.cons (.mk 2 "w" (.prim [])) .nil)
      (by decide) (by decide) (by decide)⟩

/-- C1 (code bug): on `exA` the callee `g` of the application instruction
(id 3) is never in the known set — `g` is committed as a closure capturing
`["x"]` — yet the rewritten program leaves the application's indirect flag
`false`.  The committed closure-call list is empty: the `App` case of
`explore` records a call when the callee IS in the known set (`ok` instead of
`!ok`), and the committed known set is always empty, so no call is ever
marked. -/
theorem c1_indirect_marking_code_eval :
    Transform idIter exA = .ok
      ⟨[("g", ["y"], .cons (.mk 10 "r" (.prim ["x", "y"])) .nil)],
       [("g", ["x"])],
       .cons (.mk 1 "x" (.prim []))
      (.cons (.mk 2 "g" (.mkcls ["x"] "g"))
      (.cons (.mk 3 "a" (.app "g" ["x"] false)) .nil))⟩ ∧
    (explore idIter initTrans exA).closureCalls = [] ∧
    lookupA "g" (explore idIter initTrans exA).closures = some ["x"] := by decide

/-- C2 (code bug): on `exSelf` the self-recursive `f` is classified Known (no
closures entry is recorded), but the free-variable set of its body computed
under the final classification state minus its parameters is `["f"]`, not
empty: the final known set is empty because the confirmed hypothesis state is
discarded instead of committed, so the self-call counts as a free
variable. -/
theorem c2_known_soundness_code_eval :
    lookupA "f" (explore idIter initTrans exSelf).closures = none ∧
    "f" ∉ (explore idIter initTrans exSelf).knownFuns ∧
    removeAllS ["x"] (fvB (explore idIter initTrans exSelf).knownFuns
        (.cons (.mk 10 "r" (.app "f" ["x"] false)) .nil)) = ["f"] := by decide

/-- C3: every capture list recorded in the output closures mapping belongs to
a function literal of the input, every identifier in it is read somewhere in
that function's body and is not one of its parameters, and every identifier
read in the body that is not locally bound (`fvB []`: free variables under
the empty known set, which is the committed known set at every recording
point, so in particular every such identifier that is not a known function)
and not a parameter is present — nothing is missing.  `hperm` states that the
Go-map enumeration order enumerates exactly the set. -/
theorem c3_capture_lists_sound_complete (iter : List String → List String)
    (hperm : ∀ l, (iter l).Perm l) (ir : Block) (p : Program)
    (hT : Transform iter ir = .ok p) (f : String) (arr : List String)
    (hmem : (f, arr) ∈ p.closures) :
    ∃ P B, (f, P, B) ∈ allFuns ir ∧
      (∀ y ∈ arr, y ∈ readsB B ∧ y ∉ P) ∧
      (∀ y, y ∈ fvB [] B → y ∉ P → y ∈ arr) := by
  rw [Transform_closures hT] at hmem
  rcases explore_closures_sub iter ir initTrans hmem with h | h
  · cases h
  · obtain ⟨P, B, hPB, harr⟩ := h
    refine ⟨P, B, hPB, ?_, ?_⟩
    · intro y hy
      rw [show arr = iter (removeAllS P (fvB [] B)) from harr] at hy
      rw [(hperm _).mem_iff, mem_removeAllS] at hy
      exact ⟨fvB_subset_readsB hy.1, hy.2⟩
    · intro y hyfv hyP
      rw [show arr = iter (removeAllS P (fvB [] B)) from harr,
        (hperm _).mem_iff, mem_removeAllS]
      exact ⟨hyfv, hyP⟩

/-- C3 witness: in `exA`, the recorded capture list `["x"]` of `g` is exactly
the non-parameter free reads of `g`'s body. -/
theorem c3_witness :
    ((∀ l, (idIter l).Perm l) ∧
      Transform idIter exA = .ok
        ⟨[("g", ["y"], .cons (.mk 10 "r" (.prim ["x", "y"])) .nil)],
         [("g", ["x"])],
         .cons (.mk 1 "x" (.prim []))
        (.cons (.mk 2 "g" (.mkcls ["x"] "g"))
        (.cons (.mk 3 "a" (.app "g" ["x"] false)) .nil))⟩) ∧
    (∃ P B, ("g", P, B) ∈ allFuns exA ∧
      (∀ y ∈ ["x"], y ∈ readsB B ∧ y ∉ P) ∧
      (∀ y, y ∈ fvB [] B → y ∉ P → y ∈ ["x"])) :=
  ⟨⟨fun l => List.Perm.refl l, by decide⟩,
    c3_capture_lists_sound_complete idIter (fun l => List.Perm.refl l) exA
      ⟨[("g", ["y"], .cons (.mk 10 "r" (.prim ["x", "y"])) .nil)],
       [("g", ["x"])],
       .cons (.mk 1 "x" (.prim []))
      (.cons (.mk 2 "g" (.mkcls ["x"] "g"))
      (.cons (.mk 3 "a" (.app "g" ["x"] false)) .nil))⟩
      (by decide) "g" ["x"] (by decide)⟩

/-- C4 (code bug): on `exNested` the nested literal `g` (instruction id 10)
is referenced nowhere after its definition, so per the claim it should be
detached and retained in the toplevel table; instead the output program keeps
`g`'s instruction inside `f`'s retained body and has no toplevel entry for
`g`, because the exploratory traversal that processed `g` was discarded when
`f`'s Known hypothesis was confirmed. -/
theorem c4_materialization_code_eval :
    Transform idIter exNested = .ok
      ⟨[("f", ["x"],
          .cons (.mk 10 "g" (.fn ["y"] (.cons (.mk 20 "r" (.prim ["y"])) .nil)))
          (.cons (.mk 11 "z" (.prim [])) .nil))],
        [],
        .cons (.mk 2 "w" (.prim [])) .nil⟩ ∧
    "g" ∉ keysOf [("f", (["x"],
        Block.cons (.mk 10 "g" (.fn ["y"] (.cons (.mk 20 "r" (.prim ["y"])) .nil)))
        (.cons (.mk 11 "z" (.prim [])) .nil)))] ∧
    findIns 10
      (.cons (.mk 10 "g" (.fn ["y"] (.cons (.mk 20 "r" (.prim ["y"])) .nil)))
        (.cons (.mk 11 "z" (.prim [])) .nil))
      = some ("g", .fn ["y"] (.cons (.mk 20 "r" (.prim ["y"])) .nil)) := by decide

/-- Updates never change which references a state holds (only `appendCall`
touches the state, and it only extends the slice value). -/
theorem applyU_refs (u : SUpdate) (w : DupStore) (d : TransRef) :
    (applyU u w d).2.knownR = d.knownR ∧ (applyU u w d).2.replacedR = d.replacedR ∧
    (applyU u w d).2.closuresR = d.closuresR ∧ (applyU u w d).2.blksR = d.blksR := by
  cases u <;> exact ⟨rfl, rfl, rfl, rfl⟩

/-- C6: duplicating a classification state allocates fresh references, so any
sequence of updates performed on the duplicate — insertions into its four
maps, appends to its closure-call list — leaves every observable component of
the original state unchanged. -/
theorem c6_dup_frame (w : DupStore) (s : TransRef) (hv : validR w s)
    (us : List SUpdate) :
    obsR (applyUs us (dupR w s).1 (dupR w s).2).1 s = obsR w s := by
  obtain ⟨h1, h2, h3, h4⟩ := hv
  have hdup : obsR (dupR w s).1 s = obsR w s := by
    simp only [dupR, obsR, getKnown, getReplaced, getClss, getBlks]
    rw [lookupA_setA_ne (by omega), lookupA_setA_ne (by omega),
      lookupA_setA_ne (by omega), lookupA_setA_ne (by omega)]
  have hgen : ∀ (us : List SUpdate) (w' : DupStore) (d : TransRef),
      d.knownR = w.fresh → d.replacedR = w.fresh + 1 →
      d.closuresR = w.fresh + 2 → d.blksR = w.fresh + 3 →
      obsR (applyUs us w' d).1 s = obsR w' s := by
    intro us
    induction us with
    | nil => intro w' d _ _ _ _; rfl
    | cons u rest ih =>
      intro w' d hk hr hc hb
      have hstep : obsR (applyU u w' d).1 s = obsR w' s := by
        cases u <;>
          first
          | rfl
          | (simp only [applyU, obsR, getKnown, getReplaced, getClss, getBlks]
             rw [lookupA_setA_ne (by omega)])
      have hrefs := applyU_refs u w' d
      have hrec := ih (applyU u w' d).1 (applyU u w' d).2
        (hrefs.1.trans hk) (hrefs.2.1.trans hr) (hrefs.2.2.1.trans hc) (hrefs.2.2.2.trans hb)
      calc obsR (applyUs (u :: rest) w' d).1 s
          = obsR (applyUs rest (applyU u w' d).1 (applyU u w' d).2).1 s := rfl
        _ = obsR (applyU u w' d).1 s := hrec
        _ = obsR w' s := hstep
  exact (hgen us (dupR w s).1 (dupR w s).2 rfl rfl rfl rfl).trans hdup

/-- C6 witness: a concrete store and state, with updates of every kind
applied to the duplicate, observed unchanged. -/
theorem c6_witness :
    validR ⟨1, [(0, ["a"])], [(0, [])], [(0, [])], [(0, [])]⟩ ⟨0, 0, 0, 0, [9]⟩ ∧
    obsR (applyUs [.addKnown "b", .setClosure "f" ["x", "y"], .setReplaced 3 none,
          .setBlk "g" [], .appendCall 7]
        (dupR ⟨1, [(0, ["a"])], [(0, [])], [(0, [])], [(0, [])]⟩ ⟨0, 0, 0, 0, [9]⟩).1
        (dupR ⟨1, [(0, ["a"])], [(0, [])], [(0, [])], [(0, [])]⟩ ⟨0, 0, 0, 0, [9]⟩).2).1
      ⟨0, 0, 0, 0, [9]⟩
      = obsR ⟨1, [(0, ["a"])], [(0, [])], [(0, [])], [(0, [])]⟩ ⟨0, 0, 0, 0, [9]⟩ :=
  ⟨⟨by decide, by decide, by decide, by decide⟩,
    c6_dup_frame ⟨1, [(0, ["a"])], [(0, [])], [(0, [])], [(0, [])]⟩ ⟨0, 0, 0, 0, [9]⟩
      ⟨by decide, by decide, by decide, by decide⟩
      [.addKnown "b", .setClosure "f" ["x", "y"], .setReplaced 3 none,
        .setBlk "g" [], .appendCall 7]⟩

/-- C7 (counterexample to the claim as stated): the capture list's order comes
from enumerating a Go map (`nameSet.toArray`), whose iteration order the Go
runtime does not fix; two runs whose map enumeration orders differ produce
different Programs on `exTwo` (the closure `g` captures `x` and `y`, and both
the recorded closures entry and the materialised MakeCls capture list follow
the enumeration order). -/
theorem c7_determinism_counterexample :
    Transform idIter exTwo ≠ Transform revIter exTwo := by decide

/-- C7 (amended): the transform is deterministic up to the map enumeration
order: for every enumeration order `iter` (any function that permutes the
list it is given), the run on a MakeCls-free input equals the canonical run
(identity order) with `iter` applied to every recorded capture list — in the
closures table, the toplevel bodies and the rewritten main block alike — and
every recorded capture list is deduplicated. -/
theorem c7_determinism_up_to_order (iter : List String → List String)
    (hperm : ∀ l, List.Perm (iter l) l) (ir : Block) (hnm : noMkclsB ir = true) :
    Transform iter ir = (Transform (fun l => l) ir).map (mapIterP iter)
      ∧ ∀ p, Transform iter ir = Except.ok p → ∀ e ∈ p.closures, e.2.Nodup := by
  have hnil : iter [] = [] := (hperm []).eq_nil
  refine ⟨transform_mapIter iter hnil ir hnm, ?_⟩
  intro p hp e he
  rw [Transform_closures hp] at he
  rcases explore_closures_sub iter ir initTrans he with h | h
  · simp [initTrans] at h
  · obtain ⟨P, B, hmem, hE⟩ := h
    rw [hE]
    exact ((hperm _).nodup_iff).mpr (nodup_removeAllS nodup_fvB)

/-- C7 witness: the amended determinism theorem applied at the reversing
enumeration order and the concrete block `exTwo`. -/
theorem c7_witness :
    (∀ l : List String, List.Perm (revIter l) l) ∧ noMkclsB exTwo = true ∧
      (Transform revIter exTwo = (Transform (fun l => l) exTwo).map (mapIterP revIter)
        ∧ ∀ p, Transform revIter exTwo = Except.ok p → ∀ e ∈ p.closures, e.2.Nodup) :=
  ⟨fun l => List.reverse_perm l, by decide,
    c7_determinism_up_to_order revIter (fun l => List.reverse_perm l) exTwo (by decide)⟩

/-- C8 (counterexample to the claim as stated): on `exA`, whose committed
decisions contain a MakeCls replacement, running the rewrite phase a second
time over the same decisions aborts on the function-literal invariant check
instead of reproducing the Program of the first run. -/
theorem c8_rewrite_twice_counterexample :
    (match rewritePhase (explore idIter initTrans exA) ⟨exA, []⟩ with
      | .ok pr => rewritePhase (explore idIter initTrans exA) pr.2
      | .error e => .error e)
      = .error "Replaced function is actually not a function" ∧
    ¬((match rewritePhase (explore idIter initTrans exA) ⟨exA, []⟩ with
      | .ok pr => rewritePhase (explore idIter initTrans exA) pr.2
      | .error e => .error e)
      = rewritePhase (explore idIter initTrans exA) ⟨exA, []⟩) := by decide

/-- C8 (amended): running the rewrite phase a second time over the same
committed decisions produces the identical Program and IR state, provided
every recorded decision is a removal (no MakeCls replacement). -/
theorem c8_rewrite_twice_removals (t : Trans) (ir : Block) (p : Program) (s1 : IRState)
    (hnone : ∀ e ∈ t.replacedFuns, e.2 = none)
    (h1 : rewritePhase t ⟨ir, []⟩ = .ok (p, s1)) :
    rewritePhase t s1 = .ok (p, s1) := by
  simp only [rewritePhase, List.map_nil, List.flatMap_nil, List.nil_append,
    List.append_nil] at h1
  split at h1
  · cases h1
  · rename_i hc
    rw [Except.ok.injEq, Prod.mk.injEq] at h1
    obtain ⟨hp, hs⟩ := h1
    subst hp
    subst hs
    rw [Bool.not_eq_true, List.any_eq_false] at hc
    generalize hM : markB t.closureCalls ir = m1 at hc ⊢
    generalize hPM : applyReplB t.replacedFuns m1 = pm at hc ⊢
    -- marked-ness of the rewritten IR
    have hmk : markedB t.closureCalls m1 = true := hM ▸ markedB_markB
    have hpm0 := markedB_applyReplB (R := t.replacedFuns) hmk
    rw [hPM] at hpm0
    obtain ⟨hpm1, hpm2⟩ := hpm0
    have hD0 := applyReplB_none_lookups (b := m1) hnone
    rw [hPM] at hD0
    obtain ⟨hD1, hD2⟩ := hD0
    have hmark2 : markB t.closureCalls pm.1 = pm.1 := markB_of_marked hpm1
    have hdet2 : pm.2.map (fun e => (e.1, e.2.1, markVal t.closureCalls e.1 e.2.2)) = pm.2 := by
      apply map_self_of
      intro e he
      rw [markVal_of_marked (hpm2 e he)]
    have hE : applyReplB t.replacedFuns pm.1 = (pm.1, []) :=
      applyReplB_id_of_disjoint hD1
    have hdetid : ∀ e ∈ pm.2, applyReplVal t.replacedFuns e.2.2 = (e.2.2, []) :=
      fun e he => applyReplVal_id_of_disjoint (hD2 e he)
    have hfind2 : ∀ d ∈ t.replacedFuns, findIns d.1 pm.1 = none := by
      intro d hd
      apply findIns_none_of_not_mem
      intro hmem
      have h0 := hD1 d.1 hmem
      rw [lookupA_none_decision hnone hd] at h0
      cases h0
    have hfn_found : ∀ d ∈ t.replacedFuns, ∀ x v, findIns d.1 m1 = some (x, v) →
        v.isFn = true := by
      intro d hd x v hf
      have h0 := hc d hd
      simp only [curIns, hf] at h0
      simpa using h0
    -- the second run, with the state components already reduced
    simp only [rewritePhase]
    rw [hmark2, hdet2]
    have hcond2 : (t.replacedFuns.any fun d =>
        match curIns d.1 ⟨pm.1, pm.2⟩ with
        | some (_, v) => !v.isFn
        | none => false) = false := by
      rw [List.any_eq_false]
      intro d hd
      have hlk := lookupA_none_decision hnone hd
      cases hf : findIns d.1 m1 with
      | some r =>
        obtain ⟨x, v⟩ := r
        have hdet := findInDet_applyReplB hnone hf hlk
        rw [hPM] at hdet
        have hisfn := hfn_found d hd x v hf
        simp [curIns, hfind2 d hd, hdet, isFn_applyReplVal, hisfn]
      | none =>
        have hdet := findInDet_applyReplB_none (R := t.replacedFuns) hf
        rw [hPM] at hdet
        simp [curIns, hfind2 d hd, hdet]
    rw [if_neg (by rw [hcond2]; exact Bool.false_ne_true)]
    have htl : (t.replacedFuns.filterMap fun d =>
          match curIns d.1 ⟨pm.1, pm.2⟩ with
          | some (x, .fn P B) => some (x, P, (applyReplB t.replacedFuns B).1)
          | _ => none)
        = t.replacedFuns.filterMap fun d =>
          match curIns d.1 ⟨m1, []⟩ with
          | some (x, .fn P B) => some (x, P, (applyReplB t.replacedFuns B).1)
          | _ => none := by
      apply List.filterMap_congr
      intro d hd
      have hlk := lookupA_none_decision hnone hd
      cases hf : findIns d.1 m1 with
      | some r =>
        obtain ⟨x, v⟩ := r
        have hdet := findInDet_applyReplB hnone hf hlk
        rw [hPM] at hdet
        cases v with
        | fn P B =>
          have hEB : applyReplB t.replacedFuns (applyReplB t.replacedFuns B).1
              = ((applyReplB t.replacedFuns B).1, []) :=
            applyReplB_id_of_disjoint ((applyReplB_none_lookups (b := B) hnone).1)
          simp [curIns, hfind2 d hd, hdet, hf, applyReplVal, hEB]
        | prim rs => simp [curIns, hfind2 d hd, hdet, hf, applyReplVal]
        | app cal args fl => simp [curIns, hfind2 d hd, hdet, hf, applyReplVal]
        | mkcls vs f => simp [curIns, hfind2 d hd, hdet, hf, applyReplVal]
      | none =>
        have hdet := findInDet_applyReplB_none (R := t.replacedFuns) hf
        rw [hPM] at hdet
        simp [curIns, findInDet, hfind2 d hd, hdet, hf]
    rw [hE, htl]
    have hdetmap : pm.2.map (fun e => (e.1, e.2.1, (applyReplVal t.replacedFuns e.2.2).1))
        = pm.2 := by
      apply map_self_of
      intro e he
      rw [hdetid e he]
    have hdetflat : pm.2.flatMap (fun e => (applyReplVal t.replacedFuns e.2.2).2) = [] := by
      apply flatMap_nil_of
      intro e he
      rw [hdetid e he]
    rw [hdetmap, hdetflat]
    simp

/-- C8 amended witness: on `exSelf` every committed decision is a removal,
and the second rewrite run reproduces the first run's output exactly. -/
theorem c8_witness :
    ((∀ e ∈ (explore idIter initTrans exSelf).replacedFuns, e.2 = none) ∧
      rewritePhase (explore idIter initTrans exSelf) ⟨exSelf, []⟩ = .ok
        (⟨[("f", ["x"], .cons (.mk 10 "r" (.app "f" ["x"] false)) .nil)], [],
            .cons (.mk 2 "w" (.prim [])) .nil⟩,
          ⟨.cons (.mk 2 "w" (.prim [])) .nil,
            [(1, "f", .fn ["x"] (.cons (.mk 10 "r" (.app "f" ["x"] false)) .nil))]⟩)) ∧
    rewritePhase (explore idIter initTrans exSelf)
        ⟨.cons (.mk 2 "w" (.prim [])) .nil,
          [(1, "f", .fn ["x"] (.cons (.mk 10 "r" (.app "f" ["x"] false)) .nil))]⟩
      = .ok
        (⟨[("f", ["x"], .cons (.mk 10 "r" (.app "f" ["x"] false)) .nil)], [],
            .cons (.mk 2 "w" (.prim [])) .nil⟩,
          ⟨.cons (.mk 2 "w" (.prim [])) .nil,
            [(1, "f", .fn ["x"] (.cons (.mk 10 "r" (.app "f" ["x"] false)) .nil))]⟩) :=
  ⟨⟨by decide, by decide⟩,
    c8_rewrite_twice_removals (explore idIter initTrans exSelf) exSelf
      ⟨[("f", ["x"], .cons (.mk 10 "r" (.app "f" ["x"] false)) .nil)], [],
        .cons (.mk 2 "w" (.prim [])) .nil⟩
      ⟨.cons (.mk 2 "w" (.prim [])) .nil,
        [(1, "f", .fn ["x"] (.cons (.mk 10 "r" (.app "f" ["x"] false)) .nil))]⟩
      (by decide) (by decide)⟩

/-- C9: the rewrite phase fails fatally exactly when a recorded
materialization decision targets an instruction whose current value is not a
function literal (first conjunct: the failure condition, stated over the
pre-marking IR state since marking preserves function-literal-ness; second
conjunct: in every other case a program is produced, so there is no
user-facing error class at this layer); and the scope-bookkeeping check of
`sema.derefTypeVars` is fatal exactly when pushed bound-identifier entries
remain after the whole program has been processed (third conjunct). -/
theorem c9_failure_modes :
    (∀ (t : Trans) (s : IRState),
      (∃ e, rewritePhase t s = .error e) ↔
        ∃ d ∈ t.replacedFuns, (curIns d.1 s).map (fun r => r.2.isFn) = some false) ∧
    (∀ (t : Trans) (s : IRState),
      (∀ d ∈ t.replacedFuns, (curIns d.1 s).map (fun r => r.2.isFn) ≠ some false) →
        ∃ pr, rewritePhase t s = .ok pr) ∧
    (∀ symBounds : List (String × List Nat),
      (∃ e, derefFinalCheck symBounds = .error e) ↔ symBounds ≠ []) := by
  have key : ∀ (t : Trans) (s : IRState),
      ((t.replacedFuns.any fun p =>
        match curIns p.1 ⟨markB t.closureCalls s.main,
            s.detached.map (fun e => (e.1, e.2.1, markVal t.closureCalls e.1 e.2.2))⟩ with
        | some (_, v) => !v.isFn
        | none => false) = true) ↔
      ∃ d ∈ t.replacedFuns, (curIns d.1 s).map (fun r => r.2.isFn) = some false := by
    intro t s
    rw [List.any_eq_true]
    refine exists_congr fun d => and_congr_right fun _ => ?_
    rw [show curIns d.1 ⟨markB t.closureCalls s.main,
        s.detached.map (fun e => (e.1, e.2.1, markVal t.closureCalls e.1 e.2.2))⟩
        = (curIns d.1 s).map (fun r => (r.1, markVal t.closureCalls d.1 r.2)) from
      curIns_marked (s := s)]
    cases h : curIns d.1 s with
    | none => simp
    | some r => simp [isFn_markVal, Bool.not_eq_true']
  refine ⟨?_, ?_, ?_⟩
  · intro t s
    rw [← key t s]
    simp only [rewritePhase]
    split
    · rename_i hc
      simp only [hc, iff_true]
      exact ⟨_, rfl⟩
    · rename_i hc
      simp only [Bool.not_eq_true] at hc
      simp [hc]
  · intro t s hall
    simp only [rewritePhase]
    split
    · rename_i hc
      rcases (key t s).mp hc with ⟨d, hd, hviol⟩
      exact absurd hviol (hall d hd)
    · exact ⟨_, rfl⟩
  · intro sb
    cases sb <;> simp [derefFinalCheck]

/-- C9 witness: a decision targeting a primitive-valued instruction makes the
rewrite fail, and with the decision targeting a function literal the phase
produces a program. -/
theorem c9_witness :
    (∃ e, rewritePhase ⟨[], [(5, none)], [], [], []⟩
        ⟨.cons (.mk 5 "h" (.prim [])) .nil, []⟩ = .error e) ∧
    (∃ pr, rewritePhase ⟨[], [(5, none)], [], [], []⟩
        ⟨.cons (.mk 5 "h" (.fn [] .nil)) .nil, []⟩ = .ok pr) :=
  ⟨(c9_failure_modes.1 ⟨[], [(5, none)], [], [], []⟩
      ⟨.cons (.mk 5 "h" (.prim [])) .nil, []⟩).mpr (by decide),
    c9_failure_modes.2.1 ⟨[], [(5, none)], [], [], []⟩
      ⟨.cons (.mk 5 "h" (.fn [] .nil)) .nil, []⟩ (by decide)⟩

/-- C10: when the Known hypothesis for a function literal is confirmed, the
duplicated exploratory state is discarded without any merge: the committed
known set, closures map and closure-call list after processing the
instruction are exactly those of processing only the remainder of the block,
the replaced-functions map gains exactly the entry for this instruction, and
no instruction id occurring only inside the confirmed body acquires a
replacement decision (so nested function literals of the body are neither
removed nor replaced in the output). -/
theorem c10_known_confirmed_discards_duplicate (iter : List String → List String)
    (t : Trans) (j : Nat) (x : String) (P : List String) (B rest : Block)
    (hfv : removeAllS P (fvB (insertS x t.knownFuns) B) = []) :
    (explore iter t (.cons (.mk j x (.fn P B)) rest)).knownFuns = t.knownFuns ∧
    (explore iter t (.cons (.mk j x (.fn P B)) rest)).closures
      = (explore iter t rest).closures ∧
    (explore iter t (.cons (.mk j x (.fn P B)) rest)).closureCalls
      = (explore iter t rest).closureCalls ∧
    (explore iter t (.cons (.mk j x (.fn P B)) rest)).replacedFuns
      = setA j
          (if x ∈ fvB (explore iter t rest).knownFuns rest then
            some ⟨(lookupA x (explore iter t rest).closures).getD [], x⟩
          else none)
          (explore iter t rest).replacedFuns ∧
    (∀ k, k ∈ insnIds B → k ∉ insnIds rest → k ∉ keysOf t.replacedFuns → k ≠ j →
      k ∉ keysOf (explore iter t (.cons (.mk j x (.fn P B)) rest)).replacedFuns) := by
  rw [explore_fn_known iter t j x P B rest hfv]
  refine ⟨explore_knownFuns iter rest t, rfl, rfl, rfl, ?_⟩
  intro k hkB hkrest hkt hkj hk
  rcases keysOf_setA hk with h | h
  · exact hkj h
  · rcases explore_replKeys_sub iter rest t h with h | h
    · exact hkt h
    · exact hkrest h

/-- C10 witness: in `exNested` the Known hypothesis for `f` is confirmed, and
the nested literal `g` (instruction id 10) gets no replacement decision. -/
theorem c10_witness :
    (removeAllS ["x"] (fvB (insertS "f" initTrans.knownFuns)
        (.cons (.mk 10 "g" (.fn ["y"] (.cons (.mk 20 "r" (.prim ["y"])) .nil)))
        (.cons (.mk 11 "z" (.prim [])) .nil))) = []) ∧
    (explore idIter initTrans exNested).knownFuns = initTrans.knownFuns ∧
    (explore idIter initTrans exNested).closures
      = (explore idIter initTrans (.cons (.mk 2 "w" (.prim [])) .nil)).closures ∧
    (explore idIter initTrans exNested).closureCalls
      = (explore idIter initTrans (.cons (.mk 2 "w" (.prim [])) .nil)).closureCalls ∧
    (explore idIter initTrans exNested).replacedFuns
      = setA 1
          (if "f" ∈ fvB (explore idIter initTrans (.cons (.mk 2 "w" (.prim [])) .nil)).knownFuns
              (.cons (.mk 2 "w" (.prim [])) .nil) then
            some ⟨(lookupA "f" (explore idIter initTrans
              (.cons (.mk 2 "w" (.prim [])) .nil)).closures).getD [], "f"⟩
          else none)
          (explore idIter initTrans (.cons (.mk 2 "w" (.prim [])) .nil)).replacedFuns ∧
    (∀ k, k ∈ insnIds (.cons (.mk 10 "g" (.fn ["y"] (.cons (.mk 20 "r" (.prim ["y"])) .nil)))
          (.cons (.mk 11 "z" (.prim [])) .nil)) →
      k ∉ insnIds (.cons (.mk 2 "w" (.prim [])) .nil) →
      k ∉ keysOf initTrans.replacedFuns → k ≠ 1 →
      k ∉ keysOf (explore idIter initTrans exNested).replacedFuns) :=
  ⟨by decide,
    c10_known_confirmed_discards_duplicate idIter initTrans 1 "f" ["x"]
      (.cons (.mk 10 "g" (.fn ["y"] (.cons (.mk 20 "r" (.prim ["y"])) .nil)))
        (.cons (.mk 11 "z" (.prim [])) .nil))
      (.cons (.mk 2 "w" (.prim [])) .nil)
      (by decide)⟩

end GocamlClosure
